import Mathlib

/-!
Verification of the struct2env package (env.go) against its specification.

The Go code is shallowly embedded: Go strings are lists of runes
(`List Char`), Go struct values are a tree datatype `Val`, fallible code
returns pairs with an optional error, and machine integers are `Int` with
explicit bit-width bounds.  Every definition follows the corresponding
function in env.go; definitions whose doc comment starts with
"Modelled from the spec:" embed behavior that has no source in the
repository (the POSIX shell evaluation used by the round-trip and
re-embedding properties).
-/

/-- Convert a Lean string literal to the rune list used throughout. -/
def gstr (s : String) : List Char := s.data

namespace Struct2Env

/-! ## Word splitter (env.go `SplitByCase`) -/

/-- Lookahead used by the split loop: whether the NEXT rune exists and is
lower-case; this is Go's `!last && unicode.IsLower(runes[i+1])`. -/
def headIsLower : List Char → Bool
  | [] => false
  | n :: _ => n.isLower

/-- Loop body of `SplitByCase` (env.go lines 40-50).  `prev` is the rune at
the previous index, `rem` the runes from the current index on, `words` and
`buffer` the accumulated state.  The boundary test mirrors
`!last && unicode.IsLower(runes[i+1]) || unicode.IsLower(runes[i-1])`
(Go precedence: `(!last && lower next) || lower prev`). -/
def sbcGo (prev : Char) (rem : List Char) (words : List (List Char))
    (buffer : List Char) : List (List Char) :=
  match rem with
  | [] => words ++ [buffer]
  | c :: rest =>
      if c.isUpper && (headIsLower rest || prev.isLower) then
        sbcGo c rest (words ++ [buffer]) [c]
      else
        sbcGo c rest words (buffer ++ [c])

/-- env.go `SplitByCase` (lines 32-53): split an identifier into words by
CamelCase/camelCase/CAMELCase rules; empty input yields the empty list
(Go returns nil). -/
def SplitByCase (input : List Char) : List (List Char) :=
  match input with
  | [] => []
  | c :: rest => sbcGo c rest [] [c]

/-- The word-boundary rule exactly as the specification states it, as a
predicate on absolute positions of the input: a boundary falls immediately
before the character at position `i` iff `i` is not first, the character is
upper-case, and either it is not last and the next character is lower-case,
or the preceding character is lower-case. -/
def boundaryAt (runes : List Char) (i : Nat) : Bool :=
  decide (0 < i) && decide (i < runes.length) && (runes[i]?.getD ' ').isUpper &&
    ((decide (i + 1 < runes.length) && (runes[i + 1]?.getD ' ').isLower) ||
      (runes[i - 1]?.getD ' ').isLower)

/-- Generic splitter: start a new word immediately before every position
satisfying `isB`.  Used only to state the boundary-rule claim. -/
def splitAtBGo (isB : Nat → Bool) : List Char → Nat → List (List Char) →
    List Char → List (List Char)
  | [], _, words, buffer => words ++ [buffer]
  | c :: rest, i, words, buffer =>
      if isB i then splitAtBGo isB rest (i + 1) (words ++ [buffer]) [c]
      else splitAtBGo isB rest (i + 1) words (buffer ++ [c])

/-- Split `runes` at exactly the positions satisfying the specification's
boundary rule. -/
def splitAtBoundaries (runes : List Char) : List (List Char) :=
  match runes with
  | [] => []
  | c :: rest => splitAtBGo (boundaryAt runes) rest 1 [] [c]

/-! ## Case converters (env.go lines 58-89) -/

/-- env.go `CamelCaseToUpperSnakeCase`: split into words, join with `_`,
upper-case the result. -/
def CamelCaseToUpperSnakeCase (s : List Char) : List Char :=
  if s = [] then []
  else (List.intercalate ['_'] (SplitByCase s)).map Char.toUpper

/-! ## Errors and key/value pairs -/

/-- Go error values produced by the package, by construction site.  Each
constructor carries the data interpolated into the corresponding
`fmt.Errorf` / `strconv` / `encoding/base64` error: `numError` is
`strconv.NumError` (function name, input, and whether it is the range or
the syntax error — note it does NOT carry the env var name), and
`base64Error` is `base64.CorruptInputError` (an input offset). -/
inductive GoErr where
  | notAStruct (kind : List Char)
  | nulInString (s : List Char)
  | cantInterface (fieldName : List Char)
  | cantSet (fieldName envName val : List Char)
  | cannotAddr (fieldName : List Char)
  | numError (fn : List Char) (num : List Char) (isRange : Bool)
  | base64Error (pos : Nat)
  | unsupportedSlice (kind envName val : List Char)
  | unsupportedType (kind envName val : List Char)
  deriving DecidableEq, Repr

/-- env.go `KeyValue` (lines 96-100). -/
structure KeyValue where
  Key : List Char
  ShellQuotedVal : List Char
  YamlQuotedVal : List Char
  deriving DecidableEq, Repr

/-! ## Quoting (env.go lines 105-117) -/

/-- env.go `ShellQuote` (lines 105-113): error when the input contains NUL
(the Go function then returns the empty string), otherwise wrap in single
quotes, every single quote replaced by the four characters quote,
backslash, quote, quote. -/
def sqExpand (input : List Char) : List Char :=
  input.flatMap (fun c => if c = '\'' then ['\'', '\\', '\'', '\''] else [c])

/-- env.go `ShellQuote` body: wrap the expansion in single quotes. -/
def ShellQuote (input : List Char) : List Char × Option GoErr :=
  if input.contains (Char.ofNat 0) then ([], some (.nulInString input))
  else ('\'' :: sqExpand input ++ ['\''], none)

/-- Hexadecimal digit character (lower case), as Go prints them. -/
def hexDigit (n : Nat) : Char :=
  if n < 10 then Char.ofNat (48 + n) else Char.ofNat (87 + n)

/-- One rune of Go's `strconv.Quote` escaping: quote and backslash get a
backslash, printable ASCII is kept, the standard control escapes are used,
other bytes below 0x80 become `\xHH`.  (Go keeps printable non-ASCII runes
verbatim using its `unicode.IsPrint` tables; here runes at or above 0x80
are uniformly `\u`/`\U`-escaped.  All content exercised by the claims is
ASCII, where this matches `strconv.Quote` exactly.) -/
def quoteRune (c : Char) : List Char :=
  if c = '"' then ['\\', '"']
  else if c = '\\' then ['\\', '\\']
  else if 0x20 ≤ c.toNat && c.toNat ≤ 0x7E then [c]
  else if c.toNat = 7 then ['\\', 'a']
  else if c.toNat = 8 then ['\\', 'b']
  else if c.toNat = 12 then ['\\', 'f']
  else if c = '\n' then ['\\', 'n']
  else if c.toNat = 13 then ['\\', 'r']
  else if c = '\t' then ['\\', 't']
  else if c.toNat = 11 then ['\\', 'v']
  else if c.toNat < 0x80 then
    ['\\', 'x', hexDigit (c.toNat / 16), hexDigit (c.toNat % 16)]
  else if c.toNat < 0x10000 then
    ['\\', 'u', hexDigit (c.toNat / 4096 % 16), hexDigit (c.toNat / 256 % 16),
      hexDigit (c.toNat / 16 % 16), hexDigit (c.toNat % 16)]
  else
    ['\\', 'U', hexDigit (c.toNat / 268435456 % 16), hexDigit (c.toNat / 16777216 % 16),
      hexDigit (c.toNat / 1048576 % 16), hexDigit (c.toNat / 65536 % 16),
      hexDigit (c.toNat / 4096 % 16), hexDigit (c.toNat / 256 % 16),
      hexDigit (c.toNat / 16 % 16), hexDigit (c.toNat % 16)]

/-- env.go `YamlQuote` (lines 115-117): `strconv.Quote`. -/
def YamlQuote (input : List Char) : List Char :=
  '"' :: input.flatMap quoteRune ++ ['"']

/-! ## POSIX shell evaluation (no source in the repository) -/

/-- Modelled from the spec: evaluation of one shell word under POSIX
single-quote rules (§4.4, testable property 3): inside single quotes every
character is literal and a quote closes; outside, a quote opens, a
backslash escapes the next character, anything else is literal.  `none`
for an unterminated quote or trailing backslash. -/
def shellEvalWord : List Char → Bool → Option (List Char)
  | [], false => some []
  | [], true => none
  | c :: rest, true =>
      if c = '\'' then shellEvalWord rest false
      else (shellEvalWord rest true).map (c :: ·)
  | c :: rest, false =>
      if c = '\'' then shellEvalWord rest true
      else if c = '\\' then
        match rest with
        | [] => none
        | d :: rest2 => (shellEvalWord rest2 false).map (d :: ·)
      else (shellEvalWord rest false).map (c :: ·)

mutual

/-- Modelled from the spec: split shell text into logical lines the way a
POSIX shell finds command boundaries — a newline outside single quotes
ends a line, a backslash outside quotes escapes the following character,
and newlines inside single quotes stay in the line. -/
def splitTopLines : List Char → List Char → List (List Char)
  | [], cur => if cur = [] then [] else [cur]
  | c :: rest, cur =>
      if c = '\'' then splitTopQuoted rest (cur ++ [c])
      else if c = '\\' then
        match rest with
        | [] => [cur ++ [c]]
        | d :: rest2 => splitTopLines rest2 (cur ++ [c, d])
      else if c = '\n' then cur :: splitTopLines rest []
      else splitTopLines rest (cur ++ [c])

/-- Inside a single-quoted region: everything literal until the closing
quote. -/
def splitTopQuoted : List Char → List Char → List (List Char)
  | [], cur => if cur = [] then [] else [cur]
  | c :: rest, cur =>
      if c = '\'' then splitTopLines rest (cur ++ [c])
      else splitTopQuoted rest (cur ++ [c])

end

/-- Modelled from the spec: interpret one logical line as a shell variable
assignment `NAME=word`: the name is everything before the first `=`, the
word is POSIX-evaluated; a line without `=` (e.g. the trailing `export`
line) is not an assignment. -/
def parseLine (line : List Char) : Option (List Char × List Char) :=
  let name := line.takeWhile (fun c => c ≠ '=')
  if name.length = line.length then none
  else
    match shellEvalWord (line.drop (name.length + 1)) false with
    | some v => some (name, v)
    | none => none

/-- Modelled from the spec: the environment obtained by letting a POSIX
shell evaluate rendered shell text — one binding per assignment line. -/
def parseShellText (cs : List Char) : List (List Char × List Char) :=
  (splitTopLines cs []).filterMap parseLine

/-- First-match association lookup, the environment backing `SetFrom` in
the round-trip claim. -/
def lookupKV : List (List Char × List Char) → List Char → Option (List Char)
  | [], _ => none
  | (k, v) :: rest, key => if k = key then some v else lookupKV rest key

/-- A character with no role in shell word evaluation or line splitting:
not a quote, backslash, or newline. -/
def plainChar (c : Char) : Bool := !(c = '\'' || c = '\\' || c = '\n')

/-! ## Scalar codecs (strconv / encoding/base64 behavior used by env.go) -/

/-- Decimal digit character. -/
def digitChar (n : Nat) : Char := Char.ofNat (48 + n)

/-- Decimal printing loop (the digits of `n` prepended to `acc`), with
structural fuel so that concrete evaluation reduces. -/
def natToDecGo : Nat → Nat → List Char → List Char
  | _, 0, acc => acc
  | n, fuel + 1, acc =>
      if n < 10 then digitChar n :: acc
      else natToDecGo (n / 10) fuel (digitChar (n % 10) :: acc)

/-- Decimal form of a natural number, as Go prints it. -/
def natToDec (n : Nat) : List Char := natToDecGo n (n + 1) []

/-- `fmt.Sprint` of a Go integer: decimal, `-`-prefixed when negative. -/
def intToDec (v : Int) : List Char :=
  if v < 0 then '-' :: natToDec (-v).toNat else natToDec v.toNat

/-- Value of a decimal digit character, `none` for a non-digit. -/
def digitVal (c : Char) : Option Nat :=
  if 48 ≤ c.toNat && c.toNat ≤ 57 then some (c.toNat - 48) else none

/-- Digits-only accumulation loop of `strconv.ParseUint` (base 10):
`none` on any non-digit. -/
def parseDecDigits : List Char → Nat → Option Nat
  | [], acc => some acc
  | c :: rest, acc =>
      match digitVal c with
      | some d => parseDecDigits rest (acc * 10 + d)
      | none => none

/-- `strconv.ParseInt(s, 10, bits)` as used by env.go setValue: optional
sign, decimal digits, signed range check for the field's bit width.
`numError` with `isRange := false` is `ErrSyntax`, with `true` `ErrRange`.
(Go returns a clamped value alongside a range error; env.go only uses the
value when the error is nil, so the error-case value is irrelevant.) -/
def ParseInt (s : List Char) (bits : Nat) : Except GoErr Int :=
  match s with
  | [] => .error (.numError (gstr "ParseInt") s false)
  | c :: rest =>
      let neg := c = '-'
      let digits := if c = '-' ∨ c = '+' then rest else s
      if digits = [] then .error (.numError (gstr "ParseInt") s false)
      else
        match parseDecDigits digits 0 with
        | none => .error (.numError (gstr "ParseInt") s false)
        | some n =>
            let v : Int := if neg then -(n : Int) else (n : Int)
            if -(2 ^ (bits - 1) : Int) ≤ v ∧ v < 2 ^ (bits - 1) then .ok v
            else .error (.numError (gstr "ParseInt") s true)

/-- `strconv.ParseBool` as used by env.go setValue: the exact accepted
strings, anything else `ErrSyntax`. -/
def ParseBool (s : List Char) : Except GoErr Bool :=
  if s = gstr "1" || s = gstr "t" || s = gstr "T" || s = gstr "true" ||
      s = gstr "TRUE" || s = gstr "True" then .ok true
  else if s = gstr "0" || s = gstr "f" || s = gstr "F" || s = gstr "false" ||
      s = gstr "FALSE" || s = gstr "False" then .ok false
  else .error (.numError (gstr "ParseBool") s false)

/-- The standard base64 alphabet. -/
def b64Alphabet : List Char :=
  gstr "ABCDEFGHIJKLMNOPQRSTUVWXYZabcdefghijklmnopqrstuvwxyz0123456789+/"

/-- Character of a 6-bit group. -/
def b64Char (n : Nat) : Char := b64Alphabet.getD n 'A'

/-- Position of a character in the base64 alphabet. -/
def b64Index (c : Char) : Option Nat := b64Alphabet.indexOf? c

/-- `base64.StdEncoding.EncodeToString`: 3-byte groups to 4 characters,
`=`-padded tail. -/
def b64Encode : List Nat → List Char
  | [] => []
  | [b0] => [b64Char (b0 / 4), b64Char (b0 % 4 * 16), '=', '=']
  | [b0, b1] =>
      [b64Char (b0 / 4), b64Char (b0 % 4 * 16 + b1 / 16), b64Char (b1 % 16 * 4), '=']
  | b0 :: b1 :: b2 :: rest =>
      b64Char (b0 / 4) :: b64Char (b0 % 4 * 16 + b1 / 16) ::
        b64Char (b1 % 16 * 4 + b2 / 64) :: b64Char (b2 % 64) :: b64Encode rest

/-- `base64.StdEncoding.DecodeString`: decode 4-character quanta tracking
the input offset `pos`; on a corrupt quantum the bytes of the preceding
quanta are still returned together with `CorruptInputError` (env.go's
setValue stores that partial result with `SetBytes` even when the error is
non-nil).  A padded quantum is accepted only at the end of the input. -/
def b64DecodeGo : List Char → Nat → List Nat × Option GoErr
  | [], _ => ([], none)
  | c1 :: c2 :: c3 :: c4 :: rest, pos =>
      match b64Index c1 with
      | none => ([], some (.base64Error pos))
      | some i1 =>
          match b64Index c2 with
          | none => ([], some (.base64Error (pos + 1)))
          | some i2 =>
              let b0 := i1 * 4 + i2 / 16
              if c3 = '=' then
                if c4 = '=' && rest.isEmpty then ([b0], none)
                else ([], some (.base64Error (pos + 3)))
              else
                match b64Index c3 with
                | none => ([], some (.base64Error (pos + 2)))
                | some i3 =>
                    let b1 := i2 % 16 * 16 + i3 / 4
                    if c4 = '=' then
                      if rest.isEmpty then ([b0, b1], none)
                      else ([], some (.base64Error (pos + 4)))
                    else
                      match b64Index c4 with
                      | none => ([], some (.base64Error (pos + 3)))
                      | some i4 =>
                          let (ds, e) := b64DecodeGo rest (pos + 4)
                          (b0 :: b1 :: (i3 % 4 * 64 + i4) :: ds, e)
  | leftover, pos => ([], some (.base64Error (pos + leftover.length)))

/-- `DecodeString` at offset 0. -/
def b64Decode (s : List Char) : List Nat × Option GoErr := b64DecodeGo s 0


/-! ## The record model

Go struct values are embedded as trees: scalar leaves (string, bool,
sized integer, byte slice), pointers to scalars (present or nil), and
nested structs.  `time.Time`, `time.Duration` and float fields — whose
codec goes through floating point / RFC3339 — and container types other
than byte slices are outside the embedding; no claim is settled about
them.  Field visibility (`CanInterface`/`CanSet`/`CanAddr`) is modeled as
always permitted, i.e. all modeled fields are exported and addressable. -/

/-- The kind of a scalar leaf (for integers: the reflect bit width). -/
inductive ScalTy where
  | tStr
  | tBool
  | tInt (bits : Nat)
  | tBytes
  deriving DecidableEq, Repr

/-- A scalar leaf value. -/
inductive Scal where
  | sStr (s : List Char)
  | sBool (b : Bool)
  | sInt (bits : Nat) (v : Int)
  | sBytes (bs : List Nat)
  deriving DecidableEq, Repr

/-- Static information of one struct field: declared name, `env` tag
(empty = absent, "-" = excluded), and the anonymous/embedded marker. -/
structure FieldInfo where
  name : List Char
  tag : List Char
  anon : Bool
  deriving DecidableEq, Repr

mutual
/-- A Go value as seen by the walkers. -/
inductive Val where
  | vScal (s : Scal)
  | vPtrNil (t : ScalTy)
  | vPtr (s : Scal)
  | vStruct (fs : FieldsV)
  deriving DecidableEq, Repr
/-- The field list of a struct value, in declaration order. -/
inductive FieldsV where
  | nil
  | cons (info : FieldInfo) (v : Val) (rest : FieldsV)
  deriving DecidableEq, Repr
end

/-- The kind of a scalar value. -/
def scalTy : Scal → ScalTy
  | .sStr _ => .tStr
  | .sBool _ => .tBool
  | .sInt bits _ => .tInt bits
  | .sBytes _ => .tBytes

/-- The zero value of a scalar kind (`reflect.New(...).Elem()`). -/
def zeroScal : ScalTy → Scal
  | .tStr => .sStr []
  | .tBool => .sBool false
  | .tInt bits => .sInt bits 0
  | .tBytes => .sBytes []

mutual
/-- The fresh zero value of the same type as a given value (a pointer
type's zero value is nil). -/
def zeroOfVal : Val → Val
  | .vScal sc => .vScal (zeroScal (scalTy sc))
  | .vPtrNil t => .vPtrNil t
  | .vPtr sc => .vPtrNil (scalTy sc)
  | .vStruct fs => .vStruct (zeroOfFields fs)
/-- Zero values of a whole field list. -/
def zeroOfFields : FieldsV → FieldsV
  | .nil => .nil
  | .cons info v rest => .cons info (zeroOfVal v) (zeroOfFields rest)
end

/-- `reflect.Kind` display name of a scalar, for `notAStruct` errors. -/
def scalKindName : Scal → List Char
  | .sStr _ => gstr "string"
  | .sBool _ => gstr "bool"
  | .sInt _ _ => gstr "int"
  | .sBytes _ => gstr "slice"

/-- `reflect.Kind` display name of a value (after the one pointer
dereference both walkers perform on their argument). -/
def valKindName : Val → List Char
  | .vScal sc => scalKindName sc
  | .vPtrNil _ => gstr "invalid"
  | .vPtr sc => scalKindName sc
  | .vStruct _ => gstr "struct"

/-- The key segment of a field: the explicit tag when present, else the
upper-snake conversion of the declared name (env.go lines 232-234 and
341-343). -/
def effTag (info : FieldInfo) : List Char :=
  if info.tag = [] then CamelCaseToUpperSnakeCase info.name else info.tag

/-! ## Serialization (env.go lines 162-284) -/

/-- env.go `SerializeValue` (lines 162-192) on the modeled scalar kinds:
bool unquoted, byte slices base64-then-shell-quoted (YAML form reuses the
shell form), strings shell- and YAML-quoted, and integers through the
default `fmt.Sprint` branch.  The result is the `KeyValue` whose `Key` was
set by the caller, plus the error returned by `ShellQuote` (on which the
shell form stays empty). -/
def SerializeValue (key : List Char) (value : Scal) : KeyValue × Option GoErr :=
  match value with
  | .sBool b =>
      let res := if b then gstr "true" else gstr "false"
      (⟨key, res, res⟩, none)
  | .sBytes bs =>
      let (q, e) := ShellQuote (b64Encode bs)
      (⟨key, q, q⟩, e)
  | .sStr s =>
      let (q, e) := ShellQuote s
      (⟨key, q, YamlQuote s⟩, e)
  | .sInt _ v =>
      let str := intToDec v
      let (q, e) := ShellQuote str
      (⟨key, q, YamlQuote str⟩, e)

mutual
/-- env.go `structToEnvVars` (lines 209-284): appends results and errors
to the incoming accumulators.  A pointer argument is dereferenced once; a
non-struct argument records one error. -/
def structToEnvVars (envVars : List KeyValue) (allErrors : List GoErr)
    (pre : List Char) (s : Val) : List KeyValue × List GoErr :=
  match s with
  | .vStruct fs => stevFields envVars allErrors pre fs
  | .vPtrNil _ => (envVars, allErrors ++ [.notAStruct (gstr "invalid")])
  | .vScal sc => (envVars, allErrors ++ [.notAStruct (scalKindName sc)])
  | .vPtr sc => (envVars, allErrors ++ [.notAStruct (scalKindName sc)])

/-- The field loop of `structToEnvVars` (lines 221-282): skip excluded
fields; recurse into embedded fields with the EMPTY prefix (line 229);
recurse into nested structs with prefix `tag ++ "_"` (line 268, note: not
`pre ++ tag ++ "_"`); nil pointers keep an empty shell form and get YAML
`null`; everything else is serialized, and the `KeyValue` is appended even
when serialization returned an error. -/
def stevFields (envVars : List KeyValue) (allErrors : List GoErr)
    (pre : List Char) (fs : FieldsV) : List KeyValue × List GoErr :=
  match fs with
  | .nil => (envVars, allErrors)
  | .cons info v rest =>
      if info.tag = gstr "-" then stevFields envVars allErrors pre rest
      else if info.anon then
        let r := structToEnvVars envVars allErrors [] v
        stevFields r.1 r.2 pre rest
      else
        let tag := effTag info
        match v with
        | .vStruct inner =>
            let r := stevFields envVars allErrors (tag ++ ['_']) inner
            stevFields r.1 r.2 pre rest
        | .vPtrNil _ =>
            stevFields (envVars ++ [⟨pre ++ tag, [], gstr "null"⟩]) allErrors pre rest
        | .vPtr sc =>
            let r := SerializeValue (pre ++ tag) sc
            stevFields (envVars ++ [r.1]) (allErrors ++ r.2.toList) pre rest
        | .vScal sc =>
            let r := SerializeValue (pre ++ tag) sc
            stevFields (envVars ++ [r.1]) (allErrors ++ r.2.toList) pre rest
end

/-- env.go `StructToEnvVars` (lines 202-206). -/
def StructToEnvVars (s : Val) : List KeyValue × List GoErr :=
  structToEnvVars [] [] [] s

/-! ## Shell rendering (env.go lines 119-144) -/

/-- env.go `KeyValue.ToShell` (lines 119-121): `Key=ShellQuotedVal`. -/
def kvToShell (kv : KeyValue) : List Char := kv.Key ++ '=' :: kv.ShellQuotedVal

/-- env.go `ToShellWithPrefix` (lines 129-144): one `pre ++ Key=Val` line
per entry, then (unless suppressed) a final
`export pre++Key1 pre++Key2 ...` line. -/
def ToShellWithPrefix (pre : List Char) (kvl : List KeyValue)
    (skipExport : Bool) : List Char :=
  (kvl.flatMap (fun kv => pre ++ kvToShell kv ++ ['\n'])) ++
    (if skipExport then []
     else gstr "export " ++
       List.intercalate [' '] (kvl.map (fun kv => pre ++ kv.Key)) ++ ['\n'])

/-! ## Deserialization (env.go lines 286-443) -/

/-- env.go `EnvLookup` (line 309): `(key) -> (value, found)`. -/
def EnvLookup : Type := List Char → Option (List Char)

/-- env.go `setValue` (lines 390-443) on the modeled kinds, acting on the
scalar slot it will write: strings set verbatim; integers via
`strconv.ParseInt` sized to the field's bits (non-duration fields);
bools via `strconv.ParseBool`; byte slices via base64 — and as in the
source, `SetBytes(data)` stores the partial decode result even when
decoding returned an error.  A parse error leaves the slot's old value in
place (for non-bytes kinds) and appends exactly one error. -/
def setValue (allErrors : List GoErr) (sc : Scal) (envName envVal : List Char) :
    Scal × List GoErr :=
  match sc with
  | .sStr _ => (.sStr envVal, allErrors)
  | .sInt bits v =>
      match ParseInt envVal bits with
      | .ok ev => (.sInt bits ev, allErrors)
      | .error e => (.sInt bits v, allErrors ++ [e])
  | .sBool b =>
      match ParseBool envVal with
      | .ok ev => (.sBool ev, allErrors)
      | .error e => (.sBool b, allErrors ++ [e])
  | .sBytes _ =>
      let r := b64Decode envVal
      (.sBytes r.1, allErrors ++ r.2.toList)

/-- The failing parses of `setValue`, read off its branches: when the found
value fails to parse for the slot's scalar kind, `some` of the residual
scalar the slot ends up holding (the old value for integers and bools — but
for byte slices the PARTIAL base64 decode, since line 434 runs `SetBytes`
even on error) together with the single error appended; `none` when the
parse succeeds.  Strings always succeed.  Note the error is computed from
the scalar and the value alone: no field or key name enters it. -/
def failResult : Scal → List Char → Option (Scal × GoErr)
  | .sStr _, _ => none
  | .sInt bits v, w =>
      match ParseInt w bits with
      | .ok _ => none
      | .error e => some (.sInt bits v, e)
  | .sBool b, w =>
      match ParseBool w with
      | .ok _ => none
      | .error e => some (.sBool b, e)
  | .sBytes _, w =>
      match b64Decode w with
      | (p, some e) => some (.sBytes p, e)
      | (_, none) => none

mutual
/-- env.go `setFromEnv` (lines 321-388): mutation is modeled by returning
the updated value next to the error list. -/
def setFromEnv (allErrors : List GoErr) (envLookup : EnvLookup)
    (pre : List Char) (s : Val) : Val × List GoErr :=
  match s with
  | .vStruct fs =>
      let r := sfeFields allErrors envLookup pre fs
      (.vStruct r.1, r.2)
  | other => (other, allErrors ++ [.notAStruct (valKindName other)])

/-- The field loop of `setFromEnv` (lines 335-386): skip excluded fields;
recurse into struct fields (anonymous or not — there is no embedded
special case here) with prefix `envName ++ "_"`; otherwise look the key
up, skip silently when absent, allocate a nil pointer before parsing when
a value was found (`setPointer`, lines 286-293), and dispatch to
`setValue`. -/
def sfeFields (allErrors : List GoErr) (envLookup : EnvLookup)
    (pre : List Char) (fs : FieldsV) : FieldsV × List GoErr :=
  match fs with
  | .nil => (.nil, allErrors)
  | .cons info v rest =>
      if info.tag = gstr "-" then
        let r := sfeFields allErrors envLookup pre rest
        (.cons info v r.1, r.2)
      else
        let envName := pre ++ effTag info
        match v with
        | .vStruct inner =>
            let ri := sfeFields allErrors envLookup (envName ++ ['_']) inner
            let rr := sfeFields ri.2 envLookup pre rest
            (.cons info (.vStruct ri.1) rr.1, rr.2)
        | .vScal sc =>
            match envLookup envName with
            | none =>
                let r := sfeFields allErrors envLookup pre rest
                (.cons info v r.1, r.2)
            | some envVal =>
                let rs := setValue allErrors sc envName envVal
                let rr := sfeFields rs.2 envLookup pre rest
                (.cons info (.vScal rs.1) rr.1, rr.2)
        | .vPtr sc =>
            match envLookup envName with
            | none =>
                let r := sfeFields allErrors envLookup pre rest
                (.cons info v r.1, r.2)
            | some envVal =>
                let rs := setValue allErrors sc envName envVal
                let rr := sfeFields rs.2 envLookup pre rest
                (.cons info (.vPtr rs.1) rr.1, rr.2)
        | .vPtrNil t =>
            match envLookup envName with
            | none =>
                let r := sfeFields allErrors envLookup pre rest
                (.cons info v r.1, r.2)
            | some envVal =>
                let rs := setValue allErrors (zeroScal t) envName envVal
                let rr := sfeFields rs.2 envLookup pre rest
                (.cons info (.vPtr rs.1) rr.1, rr.2)
end

/-- env.go `SetFrom` (lines 317-319). -/
def SetFrom (envLookup : EnvLookup) (pre : List Char) (s : Val) :
    Val × List GoErr :=
  setFromEnv [] envLookup pre s

mutual
/-- The keys `setFromEnv` queries its lookup for, which are independent of
what the lookup answers: one key per non-excluded leaf field, and the
recursively prefixed keys of struct fields. -/
def queriedKeys (pre : List Char) : Val → List (List Char)
  | .vStruct fs => qkFields pre fs
  | _ => []
/-- Queried keys of a field list. -/
def qkFields (pre : List Char) : FieldsV → List (List Char)
  | .nil => []
  | .cons info v rest =>
      if info.tag = gstr "-" then qkFields pre rest
      else
        let envName := pre ++ effTag info
        (match v with
         | .vStruct inner => qkFields (envName ++ ['_']) inner
         | _ => [envName]) ++ qkFields pre rest
end


/-- The unquoted "wire" string a scalar travels as: the string itself, the
bool literal, the decimal integer, the base64 text. -/
def wireStr : Scal → List Char
  | .sStr s => s
  | .sBool b => if b then gstr "true" else gstr "false"
  | .sInt _ v => intToDec v
  | .sBytes bs => b64Encode bs

/-! ## Well-formedness for the round-trip theorem -/

/-- Characters safe in an environment variable name (and, for the
rendered-text parser, distinct from `=`, newline, quote, backslash). -/
def goodKeyChar (c : Char) : Bool :=
  c.isUpper || c.isLower || (decide (48 ≤ c.toNat) && decide (c.toNat ≤ 57)) || c = '_'

/-- A usable key: non-empty and made of safe characters. -/
def goodKey (s : List Char) : Bool := !s.isEmpty && s.all goodKeyChar

/-- A field header suitable for round-tripping: not embedded, not
excluded, and its key segment is safe. -/
def goodInfo (info : FieldInfo) : Bool :=
  !info.anon && decide (info.tag ≠ gstr "-") && goodKey (effTag info)

/-- A scalar whose codec round-trips: NUL-free strings, integers within
the signed range of their width, genuine bytes. -/
def WFScal : Scal → Bool
  | .sStr s => !s.contains (Char.ofNat 0)
  | .sBool _ => true
  | .sInt bits v =>
      decide (0 < bits) && decide (-(2 ^ (bits - 1) : Int) ≤ v) &&
        decide (v < 2 ^ (bits - 1))
  | .sBytes bs => bs.all (fun b => decide (b < 256))

/-- A leaf value that round-trips: a well-formed scalar or a non-nil
pointer to one. -/
def WFLeafVal : Val → Bool
  | .vScal sc => WFScal sc
  | .vPtr sc => WFScal sc
  | _ => false

/-- Fields of a nested struct that round-trip: headers good, all leaves. -/
def WFInnerFields : FieldsV → Bool
  | .nil => true
  | .cons info v rest => goodInfo info && WFLeafVal v && WFInnerFields rest

/-- Top-level fields that round-trip: headers good, leaves or one level of
nested structs of leaves. -/
def WFTopFields : FieldsV → Bool
  | .nil => true
  | .cons info v rest =>
      goodInfo info &&
        (match v with
         | .vStruct inner => WFInnerFields inner
         | _ => WFLeafVal v) &&
        WFTopFields rest


mutual
/-- Scan of one logical line from outside quotes: true when the line has
no unquoted newline, no dangling backslash, and ends outside quotes (so
that a newline appended after it really terminates the line). -/
def lineSafe : List Char → Bool
  | [] => true
  | c :: rest =>
      if c = '\'' then lineSafeQ rest
      else if c = '\\' then
        match rest with
        | [] => false
        | _ :: rest2 => lineSafe rest2
      else if c = '\n' then false
      else lineSafe rest
/-- Scan of the remainder of a line from inside a single-quoted region. -/
def lineSafeQ : List Char → Bool
  | [] => false
  | c :: rest => if c = '\'' then lineSafe rest else lineSafeQ rest
end


/-- Concrete sample record used to instantiate theorems: the inner record
of a nested field. -/
def sampleInner : FieldsV :=
  .cons ⟨gstr "InnerA", [], false⟩ (.vScal (.sStr (gstr "rec a"))) .nil

/-- Concrete sample record: int with explicit tag, bool, byte slice,
non-nil int pointer, nested struct, and a string with quote/newline. -/
def sampleFields : FieldsV :=
  .cons ⟨gstr "Foo", [], false⟩ (.vScal (.sStr (gstr "a b'c\nd")))
  (.cons ⟨gstr "Blah", gstr "A_SPECIAL_BLAH", false⟩ (.vScal (.sInt 64 (-42)))
  (.cons ⟨gstr "ABool", [], false⟩ (.vScal (.sBool true))
  (.cons ⟨gstr "SomeBinary", [], false⟩ (.vScal (.sBytes [0, 1, 2]))
  (.cons ⟨gstr "IntPointer", [], false⟩ (.vPtr (.sInt 64 199))
  (.cons ⟨gstr "RecurseHere", [], false⟩ (.vStruct sampleInner) .nil)))))

/-- Concrete record with a single nil `*int` field, used as the round-trip
counterexample. -/
def nilPtrField : FieldsV := .cons ⟨gstr "P", [], false⟩ (.vPtrNil (.tInt 64)) .nil


/-- Concrete record for the embedded-field prefix claim: the anonymous
inner record. -/
def c2Inner : FieldsV := .cons ⟨gstr "A", [], false⟩ (.vScal (.sInt 64 5)) .nil

/-- A named struct field whose contents are a single embedded/anonymous
record. -/
def c2Outer : FieldsV := .cons ⟨gstr "Inner", [], true⟩ (.vStruct c2Inner) .nil

/-- Top-level record holding the named nested struct `Outer`. -/
def c2Top : FieldsV := .cons ⟨gstr "Outer", [], false⟩ (.vStruct c2Outer) .nil

/-! ## Word splitter properties -/

example : SplitByCase (gstr "HTTPSServer42") = [gstr "HTTPS", gstr "Server42"] := by decide
example : SplitByCase (gstr "1a2Bb") = [gstr "1a2", gstr "Bb"] := by decide
example : SplitByCase (gstr "http2Server") = [gstr "http2", gstr "Server"] := by decide
example : SplitByCase (gstr "ABCd") = [gstr "AB", gstr "Cd"] := by decide
example : SplitByCase [] = [] := by decide
example : splitAtBoundaries (gstr "HTTPSServer42") = [gstr "HTTPS", gstr "Server42"] := by decide
example : CamelCaseToUpperSnakeCase (gstr "HTTPSServer42") = gstr "HTTPS_SERVER42" := by decide
example : CamelCaseToUpperSnakeCase (gstr "aaBbbCcc") = gstr "AA_BBB_CCC" := by decide


theorem sbcGo_flatten (rem : List Char) : ∀ (prev : Char) (words : List (List Char))
    (buffer : List Char),
    (sbcGo prev rem words buffer).flatten = words.flatten ++ buffer ++ rem := by
  induction rem with
  | nil => intro prev words buffer; simp [sbcGo]
  | cons c rest ih =>
      intro prev words buffer
      simp only [sbcGo]
      split
      · rw [ih]; simp
      · rw [ih]; simp

theorem sbcGo_ne_nil (rem : List Char) : ∀ (prev : Char) (words : List (List Char))
    (buffer : List Char), (∀ w ∈ words, w ≠ []) → buffer ≠ [] →
    ∀ w ∈ sbcGo prev rem words buffer, w ≠ [] := by
  induction rem with
  | nil =>
      intro prev words buffer hw hb
      simp only [sbcGo]
      intro w hmem
      rcases List.mem_append.1 hmem with h | h
      · exact hw w h
      · simpa using (List.mem_singleton.1 h) ▸ hb
  | cons c rest ih =>
      intro prev words buffer hw hb
      simp only [sbcGo]
      split
      · refine ih c _ _ ?_ (by simp)
        intro w hmem
        rcases List.mem_append.1 hmem with h | h
        · exact hw w h
        · simpa using (List.mem_singleton.1 h) ▸ hb
      · refine ih c _ _ hw ?_
        simp [hb]

theorem sbcGo_eq_splitAtBGo (input : List Char) (rem : List Char) :
    ∀ (i : Nat) (prev : Char) (words : List (List Char)) (buffer : List Char),
    1 ≤ i → input.drop (i - 1) = prev :: rem →
    sbcGo prev rem words buffer = splitAtBGo (boundaryAt input) rem i words buffer := by
  induction rem with
  | nil => intro i prev words buffer _ _; simp [sbcGo, splitAtBGo]
  | cons c rest ih =>
      intro i prev words buffer hi hd
      have hprev : input[i - 1]? = some prev := by
        have := congrArg (fun l => l[0]?) hd
        simpa using this
      have hcur : input[i]? = some c := by
        have := congrArg (fun l => l[1]?) hd
        simp only [List.getElem?_drop] at this
        have harith : i - 1 + 1 = i := Nat.succ_pred_eq_of_pos hi
        rw [harith] at this
        simpa using this
      have hlen : i < input.length := by
        rcases List.getElem?_eq_some.1 hcur with ⟨h, _⟩
        exact h
      have h0 : 0 < i := Nat.lt_of_lt_of_le Nat.zero_lt_one hi
      have hb : boundaryAt input i =
          (c.isUpper && (headIsLower rest || prev.isLower)) := by
        unfold boundaryAt
        rw [hprev, hcur]
        cases rest with
        | nil =>
            have hnone : input[i + 1]? = none := by
              have := congrArg (fun l => l[2]?) hd
              simp only [List.getElem?_drop] at this
              have harith : i - 1 + 2 = i + 1 := by omega
              rw [harith] at this
              simpa using this
            have hge : ¬ (i + 1 < input.length) := by
              have := List.getElem?_eq_none_iff.1 hnone
              omega
            simp [hlen, h0, hge, headIsLower]
        | cons n ns =>
            have hnext : input[i + 1]? = some n := by
              have := congrArg (fun l => l[2]?) hd
              simp only [List.getElem?_drop] at this
              have harith : i - 1 + 2 = i + 1 := by omega
              rw [harith] at this
              simpa using this
            have hlt : i + 1 < input.length := by
              rcases List.getElem?_eq_some.1 hnext with ⟨h, _⟩
              exact h
            simp [hlen, h0, hlt, hnext, headIsLower]
      have hdrop : input.drop (i + 1 - 1) = c :: rest := by
        have harith : i + 1 - 1 = i - 1 + 1 := by omega
        rw [harith, ← List.drop_drop]
        rw [hd]
        simp
      simp only [sbcGo, splitAtBGo, hb]
      split <;> exact ih (i + 1) c _ _ (by omega) hdrop

theorem splitByCase_eq_boundaries (input : List Char) :
    SplitByCase input = splitAtBoundaries input := by
  cases input with
  | nil => rfl
  | cons c rest =>
      exact sbcGo_eq_splitAtBGo (c :: rest) rest 1 c [] [c] (Nat.le_refl 1) (by simp)

/-- **C4**: for every non-empty identifier, `SplitByCase` places a word
boundary immediately before a non-first character `c` exactly when `c` is
upper-case and either (`c` is not last and the next character is
lower-case) or the preceding character is lower-case (formalized as
equality with the splitter that cuts at exactly the positions satisfying
that rule); splitting "HTTPSServer42" yields ["HTTPS","Server42"],
splitting "1a2Bb" yields ["1a2","Bb"], and empty input yields the empty
list. -/
theorem c4_split_boundary_rule :
    (∀ input : List Char, input ≠ [] → SplitByCase input = splitAtBoundaries input) ∧
    SplitByCase (gstr "HTTPSServer42") = [gstr "HTTPS", gstr "Server42"] ∧
    SplitByCase (gstr "1a2Bb") = [gstr "1a2", gstr "Bb"] ∧
    SplitByCase [] = [] :=
  ⟨fun input _ => splitByCase_eq_boundaries input, by decide, by decide, rfl⟩

/-- Witness for C4 at the concrete input "AAb". -/
theorem c4_split_boundary_rule_witness :
    SplitByCase (gstr "AAb") = splitAtBoundaries (gstr "AAb") :=
  c4_split_boundary_rule.1 (gstr "AAb") (by decide)

/-- **C9**: for every non-empty input, the words returned by `SplitByCase`
are all non-empty and their concatenation, in order, is exactly the
input. -/
theorem c9_split_partition (input : List Char) (h : input ≠ []) :
    (∀ w ∈ SplitByCase input, w ≠ []) ∧ (SplitByCase input).flatten = input := by
  refine ⟨?_, ?_⟩
  · cases input with
    | nil => exact absurd rfl h
    | cons c rest =>
        exact sbcGo_ne_nil rest c [] [c] (by simp) (by simp)
  · cases input with
    | nil => exact absurd rfl h
    | cons c rest =>
        show (sbcGo c rest [] [c]).flatten = c :: rest
        rw [sbcGo_flatten]
        simp

/-- Witness for C9 at the concrete input "HTTPSServer42". -/
theorem c9_split_partition_witness :
    (∀ w ∈ SplitByCase (gstr "HTTPSServer42"), w ≠ []) ∧
    (SplitByCase (gstr "HTTPSServer42")).flatten = gstr "HTTPSServer42" :=
  c9_split_partition (gstr "HTTPSServer42") (by decide)

/-! ## Shell quoting and evaluation lemmas -/

theorem shellEvalWord_cons_true (c : Char) (rest : List Char) :
    shellEvalWord (c :: rest) true =
      if c = '\'' then shellEvalWord rest false
      else (shellEvalWord rest true).map (c :: ·) := rfl

theorem shellEvalWord_cons_false (c : Char) (rest : List Char) :
    shellEvalWord (c :: rest) false =
      if c = '\'' then shellEvalWord rest true
      else if c = '\\' then
        match rest with
        | [] => none
        | d :: rest2 => (shellEvalWord rest2 false).map (d :: ·)
      else (shellEvalWord rest false).map (c :: ·) := by
  cases rest with
  | nil => simp only [shellEvalWord]
  | cons d rest2 => simp only [shellEvalWord]

theorem shellEvalWord_sqExpand (s : List Char) : ∀ rest,
    shellEvalWord (sqExpand s ++ '\'' :: rest) true =
      (shellEvalWord rest false).map (s ++ ·) := by
  induction s with
  | nil =>
      intro rest
      show shellEvalWord ('\'' :: rest) true = _
      rw [shellEvalWord_cons_true, if_pos rfl]
      cases shellEvalWord rest false <;> simp
  | cons c cs ih =>
      intro rest
      by_cases hc : c = '\''
      · subst hc
        have hexp : sqExpand ('\'' :: cs) ++ '\'' :: rest =
            '\'' :: '\\' :: '\'' :: '\'' :: (sqExpand cs ++ '\'' :: rest) := by
          simp [sqExpand]
        rw [hexp, shellEvalWord_cons_true, if_pos rfl, shellEvalWord_cons_false,
          if_neg (by decide), if_pos rfl]
        show (shellEvalWord ('\'' :: (sqExpand cs ++ '\'' :: rest)) false).map _ = _
        rw [shellEvalWord_cons_false, if_pos rfl, ih rest]
        cases shellEvalWord rest false <;> simp
      · have hexp : sqExpand (c :: cs) ++ '\'' :: rest =
            c :: (sqExpand cs ++ '\'' :: rest) := by
          simp [sqExpand, hc]
        rw [hexp, shellEvalWord_cons_true, if_neg hc, ih rest]
        cases shellEvalWord rest false <;> simp

theorem shellEvalWord_of_plain (w : List Char) (h : w.all plainChar) :
    shellEvalWord w false = some w := by
  induction w with
  | nil => rfl
  | cons c cs ih =>
      simp only [List.all_cons, Bool.and_eq_true] at h
      have hq : c ≠ '\'' := by
        intro e; subst e; have := h.1; simp [plainChar] at this
      have hb : c ≠ '\\' := by
        intro e; subst e; have := h.1; simp [plainChar] at this
      rw [shellEvalWord_cons_false, if_neg hq, if_neg hb, ih h.2]
      rfl

/-- Helper shared by the re-embedding claim and the round-trip claim:
`ShellQuote` succeeds on NUL-free input and its output evaluates back to
the input under the POSIX single-quote rules. -/
theorem shellEval_shellQuote (s : List Char) (h : s.contains (Char.ofNat 0) = false) :
    ShellQuote s = ('\'' :: sqExpand s ++ ['\''], none) ∧
      shellEvalWord ('\'' :: sqExpand s ++ ['\'']) false = some s := by
  constructor
  · unfold ShellQuote
    rw [h]
    simp
  · show shellEvalWord ('\'' :: (sqExpand s ++ ['\''])) false = some s
    rw [shellEvalWord_cons_false, if_pos rfl]
    show shellEvalWord (sqExpand s ++ '\'' :: []) true = some s
    rw [shellEvalWord_sqExpand s []]
    simp [shellEvalWord]

/-! ## Decimal codec lemmas -/

theorem natToDecGo_acc : ∀ (fuel n : Nat) (acc : List Char),
    natToDecGo n fuel acc = natToDecGo n fuel [] ++ acc := by
  intro fuel
  induction fuel with
  | zero => intro n acc; simp [natToDecGo]
  | succ fuel ih =>
      intro n acc
      by_cases h : n < 10
      · simp [natToDecGo, h]
      · simp only [natToDecGo, if_neg h]
        rw [ih (n / 10) (digitChar (n % 10) :: acc), ih (n / 10) [digitChar (n % 10)]]
        simp

theorem natToDecGo_fuel : ∀ (fuel fuel' n : Nat) (acc : List Char), n < fuel → n < fuel' →
    natToDecGo n fuel acc = natToDecGo n fuel' acc := by
  intro fuel
  induction fuel with
  | zero => intro fuel' n acc h; omega
  | succ fuel ih =>
      intro fuel' n acc h h'
      cases fuel' with
      | zero => omega
      | succ fuel' =>
          by_cases h10 : n < 10
          · simp [natToDecGo, h10]
          · simp only [natToDecGo, if_neg h10]
            exact ih fuel' (n / 10) _ (by omega) (by omega)

theorem natToDec_eq (n : Nat) : natToDec n =
    if n < 10 then [digitChar n] else natToDec (n / 10) ++ [digitChar (n % 10)] := by
  by_cases h : n < 10
  · simp [natToDec, natToDecGo, h]
  · rw [if_neg h]
    show natToDecGo n (n + 1) [] = _
    simp only [natToDecGo]
    rw [if_neg h, natToDecGo_fuel n (n / 10 + 1) (n / 10) _ (by omega) (by omega),
      natToDecGo_acc]
    rfl

theorem natToDec_ne_nil (n : Nat) : natToDec n ≠ [] := by
  rw [natToDec_eq]
  split <;> simp

theorem digitChar_toNat (d : Nat) (h : d < 10) : (digitChar d).toNat = 48 + d := by
  interval_cases d <;> decide

theorem natToDec_digits (n : Nat) : ∀ c ∈ natToDec n, 48 ≤ c.toNat ∧ c.toNat ≤ 57 := by
  induction n using Nat.strong_induction_on with
  | _ n ih =>
      rw [natToDec_eq]
      by_cases h : n < 10
      · simp only [if_pos h, List.mem_singleton]
        rintro c rfl
        rw [digitChar_toNat n h]
        omega
      · simp only [if_neg h, List.mem_append, List.mem_singleton]
        rintro c (hc | rfl)
        · exact ih (n / 10) (by omega) c hc
        · rw [digitChar_toNat (n % 10) (by omega)]
          omega

theorem parseDecDigits_append (a : List Char) : ∀ (b : List Char) (v : Nat),
    parseDecDigits (a ++ b) v =
      match parseDecDigits a v with
      | some m => parseDecDigits b m
      | none => none := by
  induction a with
  | nil => intro b v; simp [parseDecDigits]
  | cons c cs ih =>
      intro b v
      simp only [List.cons_append, parseDecDigits]
      cases digitVal c with
      | none => simp
      | some d => simp [ih]

theorem digitVal_digitChar (d : Nat) (h : d < 10) : digitVal (digitChar d) = some d := by
  interval_cases d <;> decide

theorem parseDec_natToDec (n : Nat) : ∀ v : Nat,
    parseDecDigits (natToDec n) v = some (v * 10 ^ (natToDec n).length + n) := by
  induction n using Nat.strong_induction_on with
  | _ n ih =>
      intro v
      rw [natToDec_eq]
      by_cases h : n < 10
      · simp [if_pos h, parseDecDigits, digitVal_digitChar n h]
      · simp only [if_neg h]
        rw [parseDecDigits_append, ih (n / 10) (by omega) v]
        simp only [parseDecDigits, digitVal_digitChar (n % 10) (by omega)]
        congr 1
        rw [List.length_append, List.length_singleton, pow_succ]
        have hr : (v * 10 ^ (natToDec (n / 10)).length + n / 10) * 10 + n % 10 =
            v * (10 ^ (natToDec (n / 10)).length * 10) + (n / 10 * 10 + n % 10) := by
          ring
        rw [hr]
        have hdm : n / 10 * 10 + n % 10 = n := by omega
        rw [hdm]

/-! ## Integer and bool parse round-trips -/

theorem ParseInt_cons (c : Char) (rest : List Char) (bits : Nat) :
    ParseInt (c :: rest) bits =
      (if (if c = '-' ∨ c = '+' then rest else c :: rest) = [] then
        Except.error (.numError (gstr "ParseInt") (c :: rest) false)
      else
        match parseDecDigits (if c = '-' ∨ c = '+' then rest else c :: rest) 0 with
        | none => Except.error (.numError (gstr "ParseInt") (c :: rest) false)
        | some n =>
            if -(2 ^ (bits - 1) : Int) ≤ (if c = '-' then -(n : Int) else (n : Int)) ∧
                (if c = '-' then -(n : Int) else (n : Int)) < 2 ^ (bits - 1) then
              Except.ok (if c = '-' then -(n : Int) else (n : Int))
            else Except.error (.numError (gstr "ParseInt") (c :: rest) true)) := rfl

theorem natToDec_head_not_sign (n : Nat) (c : Char) (rest : List Char)
    (h : natToDec n = c :: rest) : ¬(c = '-' ∨ c = '+') := by
  have hc := natToDec_digits n c (by rw [h]; exact List.mem_cons_self c rest)
  rintro (rfl | rfl) <;> revert hc <;> decide

theorem ParseInt_intToDec (v : Int) (bits : Nat)
    (hlo : -(2 ^ (bits - 1) : Int) ≤ v) (hhi : v < 2 ^ (bits - 1)) :
    ParseInt (intToDec v) bits = .ok v := by
  by_cases hneg : v < 0
  · have hd : intToDec v = '-' :: natToDec (-v).toNat := by simp [intToDec, hneg]
    have hm : (((-v).toNat : Nat) : Int) = -v := Int.toNat_of_nonneg (by omega)
    rw [hd, ParseInt_cons]
    simp only [eq_self_iff_true, true_or, if_true]
    rw [if_neg (natToDec_ne_nil (-v).toNat), parseDec_natToDec (-v).toNat 0]
    dsimp only
    simp only [Nat.zero_mul, Nat.zero_add, hm, neg_neg]
    rw [if_pos ⟨hlo, hhi⟩]
  · have hd : intToDec v = natToDec v.toNat := by simp [intToDec, hneg]
    have hm : ((v.toNat : Nat) : Int) = v := Int.toNat_of_nonneg (by omega)
    rcases hnd : natToDec v.toNat with _ | ⟨c, rest⟩
    · exact absurd hnd (natToDec_ne_nil _)
    · have hsign := natToDec_head_not_sign v.toNat c rest hnd
      have hcm : ¬ c = '-' := fun e => hsign (Or.inl e)
      rw [hd, hnd, ParseInt_cons]
      simp only [if_neg hsign, if_neg hcm]
      rw [if_neg (by simp), ← hnd, parseDec_natToDec v.toNat 0]
      dsimp only
      simp only [Nat.zero_mul, Nat.zero_add, hm]
      rw [if_pos ⟨hlo, hhi⟩]

theorem ParseBool_rt (b : Bool) :
    ParseBool (if b then gstr "true" else gstr "false") = .ok b := by
  cases b <;> rfl

/-! ## Base64 round-trip -/

theorem b64Index_b64Char : ∀ k < 64, b64Index (b64Char k) = some k := by decide

theorem b64Index_pad : b64Index '=' = none := by decide

theorem b64Char_ne_pad (k : Nat) (h : k < 64) : b64Char k ≠ '=' := by
  intro e
  have h1 := b64Index_b64Char k h
  rw [e, b64Index_pad] at h1
  exact Option.noConfusion h1

theorem b64Char_contains (k : Nat) : b64Alphabet.contains (b64Char k) = true := by
  rcases Nat.lt_or_ge k 64 with h | h
  · have hball : ∀ j < 64, b64Alphabet.contains (b64Char j) = true := by decide
    exact hball k h
  · have hlen : b64Alphabet.length ≤ k := by
      have h64 : b64Alphabet.length = 64 := by decide
      omega
    unfold b64Char
    rw [List.getD_eq_default _ _ hlen]
    decide

/-- The characters produced by the base64 encoder: alphabet or padding. -/
theorem b64Encode_chars : ∀ (n : Nat) (bs : List Nat), bs.length ≤ n →
    ∀ c ∈ b64Encode bs, b64Alphabet.contains c = true ∨ c = '=' := by
  intro n
  induction n with
  | zero =>
      intro bs hlen c hc
      have : bs = [] := List.eq_nil_of_length_eq_zero (by omega)
      subst this
      simp [b64Encode] at hc
  | succ n ih =>
      intro bs hlen c hc
      match bs with
      | [] => simp [b64Encode] at hc
      | [b0] =>
          simp only [b64Encode, List.mem_cons, List.not_mem_nil, or_false] at hc
          rcases hc with rfl | rfl | rfl | rfl
          · exact Or.inl (b64Char_contains _)
          · exact Or.inl (b64Char_contains _)
          · exact Or.inr rfl
          · exact Or.inr rfl
      | [b0, b1] =>
          simp only [b64Encode, List.mem_cons, List.not_mem_nil, or_false] at hc
          rcases hc with rfl | rfl | rfl | rfl
          · exact Or.inl (b64Char_contains _)
          · exact Or.inl (b64Char_contains _)
          · exact Or.inl (b64Char_contains _)
          · exact Or.inr rfl
      | b0 :: b1 :: b2 :: rest =>
          simp only [b64Encode, List.mem_cons] at hc
          rcases hc with rfl | rfl | rfl | rfl | hc
          · exact Or.inl (b64Char_contains _)
          · exact Or.inl (b64Char_contains _)
          · exact Or.inl (b64Char_contains _)
          · exact Or.inl (b64Char_contains _)
          · exact ih rest (by simp at hlen ⊢; omega) c hc

theorem b64DecodeGo_encode : ∀ (n : Nat) (bs : List Nat), bs.length ≤ n →
    (∀ b ∈ bs, b < 256) → ∀ pos, b64DecodeGo (b64Encode bs) pos = (bs, none) := by
  intro n
  induction n with
  | zero =>
      intro bs hlen hb pos
      have hnil : bs = [] := List.eq_nil_of_length_eq_zero (by omega)
      subst hnil
      rfl
  | succ n ih =>
      intro bs hlen hb pos
      match bs with
      | [] => rfl
      | [b0] =>
          have hb0 : b0 < 256 := hb b0 (by simp)
          show b64DecodeGo [b64Char (b0 / 4), b64Char (b0 % 4 * 16), '=', '='] pos = ([b0], none)
          simp only [b64DecodeGo, b64Index_b64Char (b0 / 4) (by omega),
            b64Index_b64Char (b0 % 4 * 16) (by omega), List.isEmpty_nil, Bool.and_true,
            eq_self_iff_true, if_true, and_true]
          have : b0 / 4 * 4 + b0 % 4 * 16 / 16 = b0 := by omega
          rw [this]
          simp
      | [b0, b1] =>
          have hb0 : b0 < 256 := hb b0 (by simp)
          have hb1 : b1 < 256 := hb b1 (by simp)
          show b64DecodeGo [b64Char (b0 / 4), b64Char (b0 % 4 * 16 + b1 / 16),
            b64Char (b1 % 16 * 4), '='] pos = ([b0, b1], none)
          simp only [b64DecodeGo, b64Index_b64Char (b0 / 4) (by omega),
            b64Index_b64Char (b0 % 4 * 16 + b1 / 16) (by omega),
            b64Index_b64Char (b1 % 16 * 4) (by omega),
            if_neg (b64Char_ne_pad (b1 % 16 * 4) (by omega)), List.isEmpty_nil,
            eq_self_iff_true, if_true]
          have h0 : b0 / 4 * 4 + (b0 % 4 * 16 + b1 / 16) / 16 = b0 := by omega
          have h1 : (b0 % 4 * 16 + b1 / 16) % 16 * 16 + b1 % 16 * 4 / 4 = b1 := by omega
          rw [h0, h1]
      | b0 :: b1 :: b2 :: b3 :: brest =>
          have hb0 : b0 < 256 := hb b0 (by simp)
          have hb1 : b1 < 256 := hb b1 (by simp)
          have hb2 : b2 < 256 := hb b2 (by simp)
          show b64DecodeGo (b64Char (b0 / 4) :: b64Char (b0 % 4 * 16 + b1 / 16) ::
            b64Char (b1 % 16 * 4 + b2 / 64) :: b64Char (b2 % 64) ::
            b64Encode (b3 :: brest)) pos = (b0 :: b1 :: b2 :: b3 :: brest, none)
          simp only [b64DecodeGo, b64Index_b64Char (b0 / 4) (by omega),
            b64Index_b64Char (b0 % 4 * 16 + b1 / 16) (by omega),
            b64Index_b64Char (b1 % 16 * 4 + b2 / 64) (by omega),
            b64Index_b64Char (b2 % 64) (by omega),
            if_neg (b64Char_ne_pad (b1 % 16 * 4 + b2 / 64) (by omega)),
            if_neg (b64Char_ne_pad (b2 % 64) (by omega))]
          rw [ih (b3 :: brest) (by simp at hlen ⊢; omega)
            (fun b hbm => hb b (by simp at hbm ⊢; tauto)) (pos + 4)]
          have h0 : b0 / 4 * 4 + (b0 % 4 * 16 + b1 / 16) / 16 = b0 := by omega
          have h1 : (b0 % 4 * 16 + b1 / 16) % 16 * 16 + (b1 % 16 * 4 + b2 / 64) / 4 = b1 := by
            omega
          have h2 : (b1 % 16 * 4 + b2 / 64) % 4 * 64 + b2 % 64 = b2 := by omega
          rw [h0, h1, h2]
      | [b0, b1, b2] =>
          have hb0 : b0 < 256 := hb b0 (by simp)
          have hb1 : b1 < 256 := hb b1 (by simp)
          have hb2 : b2 < 256 := hb b2 (by simp)
          show b64DecodeGo [b64Char (b0 / 4), b64Char (b0 % 4 * 16 + b1 / 16),
            b64Char (b1 % 16 * 4 + b2 / 64), b64Char (b2 % 64)] pos = ([b0, b1, b2], none)
          simp only [b64DecodeGo, b64Index_b64Char (b0 / 4) (by omega),
            b64Index_b64Char (b0 % 4 * 16 + b1 / 16) (by omega),
            b64Index_b64Char (b1 % 16 * 4 + b2 / 64) (by omega),
            b64Index_b64Char (b2 % 64) (by omega),
            if_neg (b64Char_ne_pad (b1 % 16 * 4 + b2 / 64) (by omega)),
            if_neg (b64Char_ne_pad (b2 % 64) (by omega))]
          have h0 : b0 / 4 * 4 + (b0 % 4 * 16 + b1 / 16) / 16 = b0 := by omega
          have h1 : (b0 % 4 * 16 + b1 / 16) % 16 * 16 + (b1 % 16 * 4 + b2 / 64) / 4 = b1 := by
            omega
          have h2 : (b1 % 16 * 4 + b2 / 64) % 4 * 64 + b2 % 64 = b2 := by omega
          rw [h0, h1, h2]

/-- `DecodeString` inverts `EncodeToString` on genuine byte lists. -/
theorem b64Decode_encode (bs : List Nat) (hb : ∀ b ∈ bs, b < 256) :
    b64Decode (b64Encode bs) = (bs, none) :=
  b64DecodeGo_encode bs.length bs (Nat.le_refl _) hb 0

/-! ## Splitting rendered shell text into logical lines -/

theorem splitTopLines_cons (c : Char) (rest : List Char) (cur : List Char) :
    splitTopLines (c :: rest) cur =
      if c = '\'' then splitTopQuoted rest (cur ++ [c])
      else if c = '\\' then
        match rest with
        | [] => [cur ++ [c]]
        | d :: rest2 => splitTopLines rest2 (cur ++ [c, d])
      else if c = '\n' then cur :: splitTopLines rest []
      else splitTopLines rest (cur ++ [c]) := by
  cases rest with
  | nil => simp only [splitTopLines]
  | cons d rest2 => simp only [splitTopLines]

theorem splitTopQuoted_cons (c : Char) (rest : List Char) (cur : List Char) :
    splitTopQuoted (c :: rest) cur =
      if c = '\'' then splitTopLines rest (cur ++ [c])
      else splitTopQuoted rest (cur ++ [c]) := by
  simp only [splitTopQuoted]

theorem lineSafe_cons (c : Char) (rest : List Char) :
    lineSafe (c :: rest) =
      if c = '\'' then lineSafeQ rest
      else if c = '\\' then
        match rest with
        | [] => false
        | _ :: rest2 => lineSafe rest2
      else if c = '\n' then false
      else lineSafe rest := by
  cases rest with
  | nil => simp only [lineSafe]
  | cons d rest2 => simp only [lineSafe]

theorem lineSafeQ_cons (c : Char) (rest : List Char) :
    lineSafeQ (c :: rest) = if c = '\'' then lineSafe rest else lineSafeQ rest := by
  simp only [lineSafeQ]

theorem splitTop_append_aux : ∀ (n : Nat) (l : List Char), l.length ≤ n →
    (lineSafe l = true → ∀ rest cur, splitTopLines (l ++ '\n' :: rest) cur =
      (cur ++ l) :: splitTopLines rest []) ∧
    (lineSafeQ l = true → ∀ rest cur, splitTopQuoted (l ++ '\n' :: rest) cur =
      (cur ++ l) :: splitTopLines rest []) := by
  intro n
  induction n with
  | zero =>
      intro l hlen
      have : l = [] := List.eq_nil_of_length_eq_zero (by omega)
      subst this
      constructor
      · intro _ rest cur
        rw [List.nil_append, splitTopLines_cons]
        simp
      · intro h
        simp [lineSafeQ] at h
  | succ n ih =>
      intro l hlen
      match l with
      | [] =>
          constructor
          · intro _ rest cur
            rw [List.nil_append, splitTopLines_cons]
            simp
          · intro h
            simp [lineSafeQ] at h
      | c :: l2 =>
          constructor
          · intro hsafe rest cur
            rw [lineSafe_cons] at hsafe
            rw [List.cons_append, splitTopLines_cons]
            by_cases hq : c = '\''
            · rw [if_pos hq] at hsafe ⊢
              rw [(ih l2 (by simp at hlen; omega)).2 hsafe rest (cur ++ [c])]
              simp
            · rw [if_neg hq] at hsafe ⊢
              by_cases hb : c = '\\'
              · rw [if_pos hb] at hsafe ⊢
                match l2 with
                | [] => simp at hsafe
                | d :: l3 =>
                    dsimp only at hsafe
                    show splitTopLines (l3 ++ '\n' :: rest) (cur ++ [c, d]) =
                      (cur ++ c :: d :: l3) :: splitTopLines rest []
                    rw [(ih l3 (by simp at hlen; omega)).1 hsafe rest (cur ++ [c, d])]
                    simp
              · rw [if_neg hb] at hsafe ⊢
                by_cases hn : c = '\n'
                · rw [if_pos hn] at hsafe; exact absurd hsafe (by simp)
                · rw [if_neg hn] at hsafe ⊢
                  rw [(ih l2 (by simp at hlen; omega)).1 hsafe rest (cur ++ [c])]
                  simp
          · intro hsafe rest cur
            rw [lineSafeQ_cons] at hsafe
            rw [List.cons_append, splitTopQuoted_cons]
            by_cases hq : c = '\''
            · rw [if_pos hq] at hsafe ⊢
              rw [(ih l2 (by simp at hlen; omega)).1 hsafe rest (cur ++ [c])]
              simp
            · rw [if_neg hq] at hsafe ⊢
              rw [(ih l2 (by simp at hlen; omega)).2 hsafe rest (cur ++ [c])]
              simp

theorem splitTopLines_line (l : List Char) (h : lineSafe l = true) (rest : List Char) :
    splitTopLines (l ++ '\n' :: rest) [] = l :: splitTopLines rest [] := by
  have := (splitTop_append_aux l.length l (Nat.le_refl _)).1 h rest []
  simpa using this

/-! ## Character classes and line safety of rendered entries -/

theorem plainChar_spec (c : Char) (h : plainChar c = true) :
    c ≠ '\'' ∧ c ≠ '\\' ∧ c ≠ '\n' := by
  simp only [plainChar, Bool.not_eq_true', Bool.or_eq_false_iff,
    decide_eq_false_iff_not] at h
  exact ⟨h.1.1, h.1.2, h.2⟩

theorem goodKeyChar_plain (c : Char) (h : goodKeyChar c = true) : plainChar c = true := by
  by_contra hne
  have hne' : plainChar c = false := by
    cases hp : plainChar c
    · rfl
    · exact absurd hp hne
  simp only [plainChar, Bool.not_eq_false', Bool.or_eq_true_iff,
    decide_eq_true_eq] at hne'
  rcases hne' with (rfl | rfl) | rfl <;> revert h <;> decide

theorem goodKeyChar_ne_eq (c : Char) (h : goodKeyChar c = true) : c ≠ '=' := by
  rintro rfl; revert h; decide

theorem lineSafe_plain_append (a : List Char) (h : ∀ c ∈ a, plainChar c = true)
    (b : List Char) : lineSafe (a ++ b) = lineSafe b := by
  induction a with
  | nil => rfl
  | cons c a ih =>
      have hc := plainChar_spec c (h c (List.mem_cons_self c a))
      rw [List.cons_append, lineSafe_cons, if_neg hc.1, if_neg hc.2.1, if_neg hc.2.2]
      exact ih (fun x hx => h x (List.mem_cons_of_mem c hx))

theorem lineSafeQ_sqExpand (s : List Char) : ∀ (rest : List Char),
    lineSafeQ (sqExpand s ++ '\'' :: rest) = lineSafe rest := by
  induction s with
  | nil =>
      intro rest
      show lineSafeQ ('\'' :: rest) = lineSafe rest
      rw [lineSafeQ_cons, if_pos rfl]
  | cons c cs ih =>
      intro rest
      by_cases hc : c = '\''
      · subst hc
        have hexp : sqExpand ('\'' :: cs) ++ '\'' :: rest =
            '\'' :: '\\' :: '\'' :: '\'' :: (sqExpand cs ++ '\'' :: rest) := by
          simp [sqExpand]
        rw [hexp, lineSafeQ_cons, if_pos rfl, lineSafe_cons, if_neg (by decide),
          if_pos rfl]
        show lineSafe ('\'' :: (sqExpand cs ++ '\'' :: rest)) = _
        rw [lineSafe_cons, if_pos rfl]
        exact ih rest
      · have hexp : sqExpand (c :: cs) ++ '\'' :: rest =
            c :: (sqExpand cs ++ '\'' :: rest) := by
          simp [sqExpand, hc]
        rw [hexp, lineSafeQ_cons, if_neg hc]
        exact ih rest

/-! ## Parsing the rendered text -/

theorem takeWhile_append_all {p : Char → Bool} (a : List Char)
    (h : ∀ c ∈ a, p c = true) (b : List Char) :
    List.takeWhile p (a ++ b) = a ++ List.takeWhile p b := by
  induction a with
  | nil => rfl
  | cons c a ih =>
      rw [List.cons_append, List.takeWhile_cons, if_pos (h c (List.mem_cons_self c a))]
      rw [ih (fun x hx => h x (List.mem_cons_of_mem c hx))]
      rfl

theorem parseLine_assign (name val : List Char) (hname : ∀ c ∈ name, c ≠ '=') :
    parseLine (name ++ '=' :: val) =
      match shellEvalWord val false with
      | some w => some (name, w)
      | none => none := by
  unfold parseLine
  have htw : List.takeWhile (fun c => decide (c ≠ '=')) (name ++ '=' :: val) = name := by
    rw [takeWhile_append_all name (fun c hc => decide_eq_true (hname c hc))]
    rw [List.takeWhile_cons]
    simp
  rw [htw]
  have hlen : name.length ≠ (name ++ '=' :: val).length := by simp
  rw [if_neg hlen]
  have hdrop : (name ++ '=' :: val).drop (name.length + 1) = val := by
    have : name ++ '=' :: val = (name ++ ['=']) ++ val := by simp
    rw [this, show name.length + 1 = (name ++ ['=']).length by simp, List.drop_left]
  rw [hdrop]

theorem parseLine_no_eq (line : List Char) (h : ∀ c ∈ line, c ≠ '=') :
    parseLine line = none := by
  unfold parseLine
  have htw : List.takeWhile (fun c => decide (c ≠ '=')) line = line := by
    have := takeWhile_append_all line (fun c hc => decide_eq_true (h c hc)) []
    simpa using this
  rw [htw, if_pos rfl]

theorem forall_mem_intercalate {p : Char → Bool} (sep : List Char)
    (hsep : ∀ c ∈ sep, p c = true) :
    ∀ (ls : List (List Char)), (∀ l ∈ ls, ∀ c ∈ l, p c = true) →
      ∀ c ∈ List.intercalate sep ls, p c = true := by
  intro ls
  induction ls with
  | nil =>
      intro _ c hc
      simp [List.intercalate] at hc
  | cons l ls ih =>
      cases ls with
      | nil =>
          intro h c hc
          simp [List.intercalate] at hc
          exact h l (by simp) c hc
      | cons l2 ls2 =>
          intro h c hc
          have hun : List.intercalate sep (l :: l2 :: ls2) =
              l ++ sep ++ List.intercalate sep (l2 :: ls2) := by
            simp [List.intercalate, List.intersperse_cons_cons]
          rw [hun] at hc
          rcases List.mem_append.1 hc with hc1 | hc2
          · rcases List.mem_append.1 hc1 with hc3 | hc4
            · exact h l (by simp) c hc3
            · exact hsep c hc4
          · exact ih (fun x hx y hy => h x (List.mem_cons_of_mem l hx) y hy) c hc2

theorem splitTopLines_blocks : ∀ (ls : List (List Char)),
    (∀ l ∈ ls, lineSafe l = true) →
    splitTopLines (ls.flatMap (fun l => l ++ ['\n'])) [] = ls := by
  intro ls
  induction ls with
  | nil => intro _; rfl
  | cons l ls ih =>
      intro h
      have hassoc : (l :: ls).flatMap (fun l => l ++ ['\n']) =
          l ++ '\n' :: ls.flatMap (fun l => l ++ ['\n']) := by simp
      rw [hassoc, splitTopLines_line l (h l (by simp)),
        ih (fun x hx => h x (List.mem_cons_of_mem l hx))]


theorem flatMap_map_blocks (kvl : List KeyValue) (f : KeyValue → List Char) :
    (kvl.map f).flatMap (fun l => l ++ ['\n']) = kvl.flatMap (fun kv => f kv ++ ['\n']) := by
  induction kvl with
  | nil => rfl
  | cons kv kvl ih => simp only [List.map_cons, List.flatMap_cons, ih]

theorem toShell_blocks (P : List Char) (kvl : List KeyValue) :
    ToShellWithPrefix P kvl false =
      ((kvl.map (fun kv => P ++ kvToShell kv)) ++
        [gstr "export " ++ List.intercalate [' '] (kvl.map (fun kv => P ++ kv.Key))]).flatMap
        (fun l => l ++ ['\n']) := by
  rw [List.flatMap_append, flatMap_map_blocks]
  unfold ToShellWithPrefix
  simp

theorem goodKey_chars (s : List Char) (h : goodKey s = true) :
    ∀ c ∈ s, goodKeyChar c = true := by
  intro c hc
  simp only [goodKey, Bool.and_eq_true] at h
  exact List.all_eq_true.1 h.2 c hc

theorem filterMap_eq_map_of_some {α β : Type} (f : α → Option β) (g : α → β)
    (l : List α) (h : ∀ x ∈ l, f x = some (g x)) : l.filterMap f = l.map g := by
  induction l with
  | nil => rfl
  | cons a l ih =>
      rw [List.filterMap_cons, h a (List.mem_cons_self a l), List.map_cons,
        ih (fun x hx => h x (List.mem_cons_of_mem a hx))]

theorem filterMap_over_map {α β γ : Type} (g : α → β) (f : β → Option γ) (l : List α) :
    List.filterMap f (l.map g) = l.filterMap (fun x => f (g x)) := by
  induction l with
  | nil => rfl
  | cons a l ih => simp only [List.map_cons, List.filterMap_cons, ih]

theorem parseLine_entry (P : List Char) (kv : KeyValue)
    (hP : ∀ c ∈ P, goodKeyChar c = true) (hkey : goodKey kv.Key = true)
    (hval : ∃ w, shellEvalWord kv.ShellQuotedVal false = some w) :
    parseLine (P ++ kvToShell kv) =
      some (P ++ kv.Key, (shellEvalWord kv.ShellQuotedVal false).getD []) := by
  have hline : P ++ kvToShell kv = (P ++ kv.Key) ++ '=' :: kv.ShellQuotedVal := by
    simp [kvToShell]
  rw [hline, parseLine_assign _ _ ?hn]
  case hn =>
    intro c hc
    rcases List.mem_append.1 hc with hc1 | hc2
    · exact goodKeyChar_ne_eq c (hP c hc1)
    · exact goodKeyChar_ne_eq c (goodKey_chars _ hkey c hc2)
  rcases hval with ⟨w, hw⟩
  rw [hw]
  rfl

theorem export_chars : ∀ c ∈ gstr "export ", plainChar c = true ∧ c ≠ '=' := by decide

/-- The environment a POSIX shell builds from the rendered text: one
binding per KeyValue, mapping the prefixed key to the evaluation of its
quoted value; the trailing export line contributes no binding. -/
theorem parseShellText_render (P : List Char) (kvl : List KeyValue)
    (hP : ∀ c ∈ P, goodKeyChar c = true)
    (hkv : ∀ kv ∈ kvl, goodKey kv.Key = true ∧ lineSafe kv.ShellQuotedVal = true ∧
      ∃ w, shellEvalWord kv.ShellQuotedVal false = some w) :
    parseShellText (ToShellWithPrefix P kvl false) =
      kvl.map (fun kv =>
        (P ++ kv.Key, (shellEvalWord kv.ShellQuotedVal false).getD [])) := by
  rw [toShell_blocks]
  unfold parseShellText
  have hPplain : ∀ c ∈ P, plainChar c = true := fun c hc => goodKeyChar_plain c (hP c hc)
  have hexportplain : ∀ c ∈ gstr "export " ++
      List.intercalate [' '] (kvl.map (fun kv => P ++ kv.Key)),
      plainChar c = true ∧ c ≠ '=' := by
    intro c hc
    rcases List.mem_append.1 hc with h1 | h2
    · exact export_chars c h1
    · have := forall_mem_intercalate (p := fun c => plainChar c && decide (c ≠ '='))
        [' '] (by decide) (kvl.map (fun kv => P ++ kv.Key)) ?_ c h2
      · simpa using this
      · intro l hl x hx
        rcases List.mem_map.1 hl with ⟨kv, hkvm, rfl⟩
        rcases List.mem_append.1 hx with hx1 | hx2
        · simp [goodKeyChar_plain x (hP x hx1), goodKeyChar_ne_eq x (hP x hx1)]
        · have hg : goodKeyChar x = true := goodKey_chars _ (hkv kv hkvm).1 x hx2
          simp [goodKeyChar_plain x hg, goodKeyChar_ne_eq x hg]
  have hlines : ∀ l ∈ (kvl.map (fun kv => P ++ kvToShell kv)) ++
      [gstr "export " ++ List.intercalate [' '] (kvl.map (fun kv => P ++ kv.Key))],
      lineSafe l = true := by
    intro l hl
    rcases List.mem_append.1 hl with h1 | h2
    · rcases List.mem_map.1 h1 with ⟨kv, hm, rfl⟩
      have hline : P ++ kvToShell kv = (P ++ kv.Key ++ ['=']) ++ kv.ShellQuotedVal := by
        simp [kvToShell]
      rw [hline, lineSafe_plain_append]
      · exact (hkv kv hm).2.1
      · intro c hc
        rcases List.mem_append.1 hc with hc1 | hc2
        · rcases List.mem_append.1 hc1 with hc3 | hc4
          · exact hPplain c hc3
          · exact goodKeyChar_plain c (goodKey_chars _ (hkv kv hm).1 c hc4)
        · rcases List.mem_singleton.1 hc2 with rfl
          decide
    · rcases List.mem_singleton.1 h2 with rfl
      have := lineSafe_plain_append (gstr "export " ++
        List.intercalate [' '] (kvl.map (fun kv => P ++ kv.Key)))
        (fun c hc => (hexportplain c hc).1) []
      simpa using this
  rw [splitTopLines_blocks _ hlines, List.filterMap_append]
  have hexp : List.filterMap parseLine [gstr "export " ++
      List.intercalate [' '] (kvl.map (fun kv => P ++ kv.Key))] = [] := by
    simp only [List.filterMap_cons]
    rw [parseLine_no_eq _ (fun c hc => (hexportplain c hc).2)]
    rfl
  rw [hexp, List.append_nil, filterMap_over_map]
  exact filterMap_eq_map_of_some _ _ kvl
    (fun kv hm => parseLine_entry P kv hP (hkv kv hm).1 (hkv kv hm).2.2)

theorem lookupKV_map_nodup (P : List Char) (f : KeyValue → List Char) :
    ∀ (kvl : List KeyValue), (kvl.map KeyValue.Key).Nodup →
    ∀ kv ∈ kvl, lookupKV (kvl.map (fun x => (P ++ x.Key, f x))) (P ++ kv.Key) = some (f kv) := by
  intro kvl
  induction kvl with
  | nil => intro _ kv hm; exact absurd hm (List.not_mem_nil kv)
  | cons x kvl ih =>
      intro hnd kv hm
      rw [List.map_cons] at hnd
      have hnd' := List.nodup_cons.1 hnd
      simp only [List.map_cons, lookupKV]
      rcases List.mem_cons.1 hm with rfl | hm2
      · rw [if_pos rfl]
      · have hx : x.Key ≠ kv.Key := by
          intro e
          have hmem : x.Key ∈ kvl.map KeyValue.Key := by
            rw [e]; exact List.mem_map_of_mem KeyValue.Key hm2
          exact hnd'.1 hmem
        rw [if_neg (fun e => hx (List.append_cancel_left e))]
        exact ih hnd'.2 kv hm2

/-! ## Step equations of the walkers -/

theorem stevFields_nil (ev : List KeyValue) (er : List GoErr) (p : List Char) :
    stevFields ev er p .nil = (ev, er) := rfl

theorem stevFields_cons_scal (ev : List KeyValue) (er : List GoErr) (p : List Char)
    (info : FieldInfo) (sc : Scal) (rest : FieldsV) :
    stevFields ev er p (.cons info (.vScal sc) rest) =
      if info.tag = gstr "-" then stevFields ev er p rest
      else if info.anon = true then
        stevFields (structToEnvVars ev er [] (.vScal sc)).1
          (structToEnvVars ev er [] (.vScal sc)).2 p rest
      else stevFields (ev ++ [(SerializeValue (p ++ effTag info) sc).1])
        (er ++ (SerializeValue (p ++ effTag info) sc).2.toList) p rest := rfl

theorem stevFields_cons_ptr (ev : List KeyValue) (er : List GoErr) (p : List Char)
    (info : FieldInfo) (sc : Scal) (rest : FieldsV) :
    stevFields ev er p (.cons info (.vPtr sc) rest) =
      if info.tag = gstr "-" then stevFields ev er p rest
      else if info.anon = true then
        stevFields (structToEnvVars ev er [] (.vPtr sc)).1
          (structToEnvVars ev er [] (.vPtr sc)).2 p rest
      else stevFields (ev ++ [(SerializeValue (p ++ effTag info) sc).1])
        (er ++ (SerializeValue (p ++ effTag info) sc).2.toList) p rest := rfl

theorem stevFields_cons_ptrNil (ev : List KeyValue) (er : List GoErr) (p : List Char)
    (info : FieldInfo) (t : ScalTy) (rest : FieldsV) :
    stevFields ev er p (.cons info (.vPtrNil t) rest) =
      if info.tag = gstr "-" then stevFields ev er p rest
      else if info.anon = true then
        stevFields (structToEnvVars ev er [] (.vPtrNil t)).1
          (structToEnvVars ev er [] (.vPtrNil t)).2 p rest
      else stevFields (ev ++ [⟨p ++ effTag info, [], gstr "null"⟩]) er p rest := rfl

theorem stevFields_cons_struct (ev : List KeyValue) (er : List GoErr) (p : List Char)
    (info : FieldInfo) (inner : FieldsV) (rest : FieldsV) :
    stevFields ev er p (.cons info (.vStruct inner) rest) =
      if info.tag = gstr "-" then stevFields ev er p rest
      else if info.anon = true then
        stevFields (structToEnvVars ev er [] (.vStruct inner)).1
          (structToEnvVars ev er [] (.vStruct inner)).2 p rest
      else
        stevFields (stevFields ev er (effTag info ++ ['_']) inner).1
          (stevFields ev er (effTag info ++ ['_']) inner).2 p rest := rfl

theorem structToEnvVars_struct (ev : List KeyValue) (er : List GoErr) (p : List Char)
    (fs : FieldsV) : structToEnvVars ev er p (.vStruct fs) = stevFields ev er p fs := rfl

/-! ## Accumulator normalization of the walkers -/

theorem stev_append_aux : ∀ (n : Nat),
    (∀ (s : Val), sizeOf s ≤ n → ∀ ev er p, structToEnvVars ev er p s =
      (ev ++ (structToEnvVars [] [] p s).1, er ++ (structToEnvVars [] [] p s).2)) ∧
    (∀ (fs : FieldsV), sizeOf fs ≤ n → ∀ ev er p, stevFields ev er p fs =
      (ev ++ (stevFields [] [] p fs).1, er ++ (stevFields [] [] p fs).2)) := by
  intro n
  induction n with
  | zero =>
      constructor
      · intro s hs; cases s <;> simp at hs
      · intro fs hs; cases fs <;> simp at hs
  | succ n ih =>
      constructor
      · intro s hs ev er p
        cases s with
        | vStruct fs =>
            rw [structToEnvVars_struct, structToEnvVars_struct]
            exact ih.2 fs (by simp at hs; omega) ev er p
        | vPtrNil t => simp [structToEnvVars]
        | vScal sc => simp [structToEnvVars]
        | vPtr sc => simp [structToEnvVars]
      · intro fs hs ev er p
        cases fs with
        | nil => simp [stevFields_nil]
        | cons info v rest =>
            have hrest : sizeOf rest ≤ n := by simp at hs; omega
            have hv : sizeOf v ≤ n := by simp at hs; omega
            have hanonstep : ∀ hv2 : sizeOf v ≤ n,
                stevFields (structToEnvVars ev er [] v).1
                  (structToEnvVars ev er [] v).2 p rest =
                (ev ++ (stevFields (structToEnvVars [] [] [] v).1
                  (structToEnvVars [] [] [] v).2 p rest).1,
                 er ++ (stevFields (structToEnvVars [] [] [] v).1
                  (structToEnvVars [] [] [] v).2 p rest).2) := by
              intro hv2
              rw [ih.1 v hv2 ev er []]
              dsimp only
              rw [ih.2 rest hrest (ev ++ (structToEnvVars [] [] [] v).1)
                (er ++ (structToEnvVars [] [] [] v).2) p,
                ih.2 rest hrest (structToEnvVars [] [] [] v).1
                (structToEnvVars [] [] [] v).2 p]
              simp
            have hleafstep : ∀ (kv : KeyValue) (e : List GoErr),
                stevFields (ev ++ [kv]) (er ++ e) p rest =
                (ev ++ (stevFields ([kv]) e p rest).1,
                 er ++ (stevFields ([kv]) e p rest).2) := by
              intro kv e
              rw [ih.2 rest hrest (ev ++ [kv]) (er ++ e) p,
                ih.2 rest hrest [kv] e p]
              simp
            cases v with
            | vScal sc =>
                rw [stevFields_cons_scal, stevFields_cons_scal]
                by_cases hdash : info.tag = gstr "-"
                · rw [if_pos hdash, if_pos hdash]
                  exact ih.2 rest hrest ev er p
                · rw [if_neg hdash, if_neg hdash]
                  by_cases hanon : info.anon = true
                  · rw [if_pos hanon, if_pos hanon]
                    exact hanonstep hv
                  · rw [if_neg hanon, if_neg hanon]
                    have := hleafstep (SerializeValue (p ++ effTag info) sc).1
                      ((SerializeValue (p ++ effTag info) sc).2.toList)
                    simpa using this
            | vPtr sc =>
                rw [stevFields_cons_ptr, stevFields_cons_ptr]
                by_cases hdash : info.tag = gstr "-"
                · rw [if_pos hdash, if_pos hdash]
                  exact ih.2 rest hrest ev er p
                · rw [if_neg hdash, if_neg hdash]
                  by_cases hanon : info.anon = true
                  · rw [if_pos hanon, if_pos hanon]
                    exact hanonstep hv
                  · rw [if_neg hanon, if_neg hanon]
                    have := hleafstep (SerializeValue (p ++ effTag info) sc).1
                      ((SerializeValue (p ++ effTag info) sc).2.toList)
                    simpa using this
            | vPtrNil t =>
                rw [stevFields_cons_ptrNil, stevFields_cons_ptrNil]
                by_cases hdash : info.tag = gstr "-"
                · rw [if_pos hdash, if_pos hdash]
                  exact ih.2 rest hrest ev er p
                · rw [if_neg hdash, if_neg hdash]
                  by_cases hanon : info.anon = true
                  · rw [if_pos hanon, if_pos hanon]
                    exact hanonstep hv
                  · rw [if_neg hanon, if_neg hanon]
                    have := hleafstep ⟨p ++ effTag info, [], gstr "null"⟩ []
                    simpa using this
            | vStruct inner =>
                rw [stevFields_cons_struct, stevFields_cons_struct]
                by_cases hdash : info.tag = gstr "-"
                · rw [if_pos hdash, if_pos hdash]
                  exact ih.2 rest hrest ev er p
                · rw [if_neg hdash, if_neg hdash]
                  by_cases hanon : info.anon = true
                  · rw [if_pos hanon, if_pos hanon]
                    exact hanonstep hv
                  · rw [if_neg hanon, if_neg hanon]
                    have hinner : sizeOf inner ≤ n := by simp at hs; omega
                    rw [ih.2 inner hinner ev er (effTag info ++ ['_'])]
                    dsimp only
                    rw [ih.2 rest hrest
                      (ev ++ (stevFields [] [] (effTag info ++ ['_']) inner).1)
                      (er ++ (stevFields [] [] (effTag info ++ ['_']) inner).2) p,
                      ih.2 rest hrest (stevFields [] [] (effTag info ++ ['_']) inner).1
                      (stevFields [] [] (effTag info ++ ['_']) inner).2 p]
                    simp

/-- Accumulators of the serialize walker are append-only. -/
theorem stevFields_append (fs : FieldsV) (ev : List KeyValue) (er : List GoErr)
    (p : List Char) : stevFields ev er p fs =
      (ev ++ (stevFields [] [] p fs).1, er ++ (stevFields [] [] p fs).2) :=
  (stev_append_aux (sizeOf fs)).2 fs (Nat.le_refl _) ev er p

/-- Accumulators of `structToEnvVars` are append-only. -/
theorem structToEnvVars_append (s : Val) (ev : List KeyValue) (er : List GoErr)
    (p : List Char) : structToEnvVars ev er p s =
      (ev ++ (structToEnvVars [] [] p s).1, er ++ (structToEnvVars [] [] p s).2) :=
  (stev_append_aux (sizeOf s)).1 s (Nat.le_refl _) ev er p

/-! ## Step equations of the deserialize walker -/

theorem sfeFields_nil (errs : List GoErr) (L : EnvLookup) (p : List Char) :
    sfeFields errs L p .nil = (.nil, errs) := rfl

theorem setFromEnv_struct (errs : List GoErr) (L : EnvLookup) (p : List Char)
    (fs : FieldsV) : setFromEnv errs L p (.vStruct fs) =
      ((.vStruct (sfeFields errs L p fs).1), (sfeFields errs L p fs).2) := rfl

theorem sfeFields_cons_scal_eq (errs : List GoErr) (L : EnvLookup) (p : List Char)
    (info : FieldInfo) (sc : Scal) (rest : FieldsV) :
    sfeFields errs L p (.cons info (.vScal sc) rest) =
      if info.tag = gstr "-" then
        (.cons info (.vScal sc) (sfeFields errs L p rest).1, (sfeFields errs L p rest).2)
      else
        match L (p ++ effTag info) with
        | none =>
            (.cons info (.vScal sc) (sfeFields errs L p rest).1, (sfeFields errs L p rest).2)
        | some envVal =>
            (.cons info (.vScal (setValue errs sc (p ++ effTag info) envVal).1)
              (sfeFields (setValue errs sc (p ++ effTag info) envVal).2 L p rest).1,
             (sfeFields (setValue errs sc (p ++ effTag info) envVal).2 L p rest).2) := rfl

theorem sfeFields_cons_ptr_eq (errs : List GoErr) (L : EnvLookup) (p : List Char)
    (info : FieldInfo) (sc : Scal) (rest : FieldsV) :
    sfeFields errs L p (.cons info (.vPtr sc) rest) =
      if info.tag = gstr "-" then
        (.cons info (.vPtr sc) (sfeFields errs L p rest).1, (sfeFields errs L p rest).2)
      else
        match L (p ++ effTag info) with
        | none =>
            (.cons info (.vPtr sc) (sfeFields errs L p rest).1, (sfeFields errs L p rest).2)
        | some envVal =>
            (.cons info (.vPtr (setValue errs sc (p ++ effTag info) envVal).1)
              (sfeFields (setValue errs sc (p ++ effTag info) envVal).2 L p rest).1,
             (sfeFields (setValue errs sc (p ++ effTag info) envVal).2 L p rest).2) := rfl

theorem sfeFields_cons_ptrNil_eq (errs : List GoErr) (L : EnvLookup) (p : List Char)
    (info : FieldInfo) (t : ScalTy) (rest : FieldsV) :
    sfeFields errs L p (.cons info (.vPtrNil t) rest) =
      if info.tag = gstr "-" then
        (.cons info (.vPtrNil t) (sfeFields errs L p rest).1, (sfeFields errs L p rest).2)
      else
        match L (p ++ effTag info) with
        | none =>
            (.cons info (.vPtrNil t) (sfeFields errs L p rest).1, (sfeFields errs L p rest).2)
        | some envVal =>
            (.cons info (.vPtr (setValue errs (zeroScal t) (p ++ effTag info) envVal).1)
              (sfeFields (setValue errs (zeroScal t) (p ++ effTag info) envVal).2 L p rest).1,
             (sfeFields (setValue errs (zeroScal t) (p ++ effTag info) envVal).2 L p rest).2) := rfl

theorem sfeFields_cons_struct_eq (errs : List GoErr) (L : EnvLookup) (p : List Char)
    (info : FieldInfo) (inner : FieldsV) (rest : FieldsV) :
    sfeFields errs L p (.cons info (.vStruct inner) rest) =
      if info.tag = gstr "-" then
        (.cons info (.vStruct inner) (sfeFields errs L p rest).1, (sfeFields errs L p rest).2)
      else
        (.cons info (.vStruct (sfeFields errs L ((p ++ effTag info) ++ ['_']) inner).1)
          (sfeFields (sfeFields errs L ((p ++ effTag info) ++ ['_']) inner).2 L p rest).1,
         (sfeFields (sfeFields errs L ((p ++ effTag info) ++ ['_']) inner).2 L p rest).2) := rfl

/-- A found key on a scalar field: the slot is written through `setValue`. -/
theorem sfeFields_cons_scal_found (errs : List GoErr) (L : EnvLookup) (p : List Char)
    (info : FieldInfo) (sc : Scal) (rest : FieldsV) (w : List Char)
    (hdash : info.tag ≠ gstr "-") (hL : L (p ++ effTag info) = some w) :
    sfeFields errs L p (.cons info (.vScal sc) rest) =
      (.cons info (.vScal (setValue errs sc (p ++ effTag info) w).1)
        (sfeFields (setValue errs sc (p ++ effTag info) w).2 L p rest).1,
       (sfeFields (setValue errs sc (p ++ effTag info) w).2 L p rest).2) := by
  rw [sfeFields_cons_scal_eq, if_neg hdash, hL]

/-- A found key on a nil pointer field: the pointer is allocated
(`setPointer`) and the zero pointee written through `setValue`. -/
theorem sfeFields_cons_ptrNil_found (errs : List GoErr) (L : EnvLookup) (p : List Char)
    (info : FieldInfo) (t : ScalTy) (rest : FieldsV) (w : List Char)
    (hdash : info.tag ≠ gstr "-") (hL : L (p ++ effTag info) = some w) :
    sfeFields errs L p (.cons info (.vPtrNil t) rest) =
      (.cons info (.vPtr (setValue errs (zeroScal t) (p ++ effTag info) w).1)
        (sfeFields (setValue errs (zeroScal t) (p ++ effTag info) w).2 L p rest).1,
       (sfeFields (setValue errs (zeroScal t) (p ++ effTag info) w).2 L p rest).2) := by
  rw [sfeFields_cons_ptrNil_eq, if_neg hdash, hL]

/-- A found key on a non-nil pointer field. -/
theorem sfeFields_cons_ptr_found (errs : List GoErr) (L : EnvLookup) (p : List Char)
    (info : FieldInfo) (sc : Scal) (rest : FieldsV) (w : List Char)
    (hdash : info.tag ≠ gstr "-") (hL : L (p ++ effTag info) = some w) :
    sfeFields errs L p (.cons info (.vPtr sc) rest) =
      (.cons info (.vPtr (setValue errs sc (p ++ effTag info) w).1)
        (sfeFields (setValue errs sc (p ++ effTag info) w).2 L p rest).1,
       (sfeFields (setValue errs sc (p ++ effTag info) w).2 L p rest).2) := by
  rw [sfeFields_cons_ptr_eq, if_neg hdash, hL]

/-- `failResult` is exactly the failure behavior of `setValue`: when it
fires, `setValue` stores the residual scalar and appends that one error,
for any prior error list and any env name. -/
theorem setValue_fail (errs : List GoErr) (sc : Scal) (n w : List Char)
    (sc' : Scal) (e : GoErr) (h : failResult sc w = some (sc', e)) :
    setValue errs sc n w = (sc', errs ++ [e]) := by
  cases sc with
  | sStr s => exact Option.noConfusion h
  | sInt bits v =>
      dsimp only [failResult] at h
      cases hp : ParseInt w bits with
      | ok x => rw [hp] at h; exact Option.noConfusion h
      | error e0 =>
          rw [hp] at h
          dsimp only at h
          rw [Option.some.injEq, Prod.mk.injEq] at h
          obtain ⟨h1, h2⟩ := h
          subst h1; subst h2
          dsimp only [setValue]
          rw [hp]
  | sBool b =>
      dsimp only [failResult] at h
      cases hp : ParseBool w with
      | ok x => rw [hp] at h; exact Option.noConfusion h
      | error e0 =>
          rw [hp] at h
          dsimp only at h
          rw [Option.some.injEq, Prod.mk.injEq] at h
          obtain ⟨h1, h2⟩ := h
          subst h1; subst h2
          dsimp only [setValue]
          rw [hp]
  | sBytes l =>
      dsimp only [failResult] at h
      rcases hd : b64Decode w with ⟨p, oe⟩
      cases oe with
      | none => rw [hd] at h; exact Option.noConfusion h
      | some e0 =>
          rw [hd] at h
          dsimp only at h
          rw [Option.some.injEq, Prod.mk.injEq] at h
          obtain ⟨h1, h2⟩ := h
          subst h1; subst h2
          dsimp only [setValue]
          rw [hd]
          rfl

/-! ## Leaf serialization properties -/

theorem scalTy_zeroScal (t : ScalTy) : scalTy (zeroScal t) = t := by cases t <;> rfl

theorem setValue_wire (sc old : Scal) (h : WFScal sc = true) (hty : scalTy old = scalTy sc)
    (errs : List GoErr) (en : List Char) :
    setValue errs old en (wireStr sc) = (sc, errs) := by
  cases sc with
  | sStr s =>
      cases old <;> simp [scalTy] at hty
      simp [setValue, wireStr]
  | sBool b =>
      cases old <;> simp [scalTy] at hty
      simp [setValue, wireStr, ParseBool_rt b]
  | sInt bits v =>
      simp only [WFScal, Bool.and_eq_true, decide_eq_true_eq] at h
      cases old with
      | sInt bits2 v2 =>
          simp only [scalTy, ScalTy.tInt.injEq] at hty
          subst hty
          simp [setValue, wireStr, ParseInt_intToDec v _ h.1.2 h.2]
      | sStr s => simp [scalTy] at hty
      | sBool b => simp [scalTy] at hty
      | sBytes bs => simp [scalTy] at hty
  | sBytes bs =>
      have hbs : ∀ b ∈ bs, b < 256 := by simpa [WFScal] using h
      cases old <;> simp [scalTy] at hty
      simp [setValue, wireStr, b64Decode,
        b64DecodeGo_encode bs.length bs (Nat.le_refl _) hbs 0]

theorem intToDec_nul_free (v : Int) : (intToDec v).contains (Char.ofNat 0) = false := by
  have hmem : Char.ofNat 0 ∉ intToDec v := by
    intro hm
    have h0 : (Char.ofNat 0).toNat = 0 := by decide
    unfold intToDec at hm
    by_cases hv : v < 0
    · rw [if_pos hv] at hm
      rcases List.mem_cons.1 hm with he | hm2
      · exact absurd he (by decide)
      · have := natToDec_digits (-v).toNat _ hm2
        omega
    · rw [if_neg hv] at hm
      have := natToDec_digits v.toNat _ hm
      omega
  simp_all

theorem b64Encode_nul_free (bs : List Nat) :
    (b64Encode bs).contains (Char.ofNat 0) = false := by
  have hmem : Char.ofNat 0 ∉ b64Encode bs := by
    intro hm
    rcases b64Encode_chars bs.length bs (Nat.le_refl _) _ hm with hc | hc
    · revert hc; decide
    · exact absurd hc (by decide)
  simp_all

theorem quoted_val_ok (w : List Char) (h : w.contains (Char.ofNat 0) = false) :
    ShellQuote w = ('\'' :: sqExpand w ++ ['\''], none) ∧
    lineSafe ('\'' :: sqExpand w ++ ['\'']) = true ∧
    shellEvalWord ('\'' :: sqExpand w ++ ['\'']) false = some w := by
  refine ⟨(shellEval_shellQuote w h).1, ?_, (shellEval_shellQuote w h).2⟩
  show lineSafe ('\'' :: (sqExpand w ++ ['\''])) = true
  rw [lineSafe_cons, if_pos rfl]
  show lineSafeQ (sqExpand w ++ '\'' :: []) = true
  rw [lineSafeQ_sqExpand]
  rfl

theorem serialize_leaf (key : List Char) (sc : Scal) (h : WFScal sc = true) :
    (SerializeValue key sc).2 = none ∧
    (SerializeValue key sc).1.Key = key ∧
    lineSafe (SerializeValue key sc).1.ShellQuotedVal = true ∧
    shellEvalWord (SerializeValue key sc).1.ShellQuotedVal false = some (wireStr sc) := by
  cases sc with
  | sBool b =>
      cases b
      · refine ⟨rfl, rfl, ?_, ?_⟩
        · show lineSafe (gstr "false") = true; decide
        · show shellEvalWord (gstr "false") false = some (gstr "false"); decide
      · refine ⟨rfl, rfl, ?_, ?_⟩
        · show lineSafe (gstr "true") = true; decide
        · show shellEvalWord (gstr "true") false = some (gstr "true"); decide
  | sStr s =>
      have hnul : s.contains (Char.ofNat 0) = false := by simpa [WFScal] using h
      have hq := quoted_val_ok s hnul
      have hsv : SerializeValue key (.sStr s) =
          (⟨key, '\'' :: sqExpand s ++ ['\''], YamlQuote s⟩, none) := by
        simp [SerializeValue, hq.1]
      rw [hsv]
      exact ⟨rfl, rfl, hq.2.1, hq.2.2⟩
  | sInt bits v =>
      have hq := quoted_val_ok (intToDec v) (intToDec_nul_free v)
      have hsv : SerializeValue key (.sInt bits v) =
          (⟨key, '\'' :: sqExpand (intToDec v) ++ ['\''], YamlQuote (intToDec v)⟩, none) := by
        simp [SerializeValue, hq.1]
      rw [hsv]
      exact ⟨rfl, rfl, hq.2.1, hq.2.2⟩
  | sBytes bs =>
      have hq := quoted_val_ok (b64Encode bs) (b64Encode_nul_free bs)
      have hsv : SerializeValue key (.sBytes bs) =
          (⟨key, '\'' :: sqExpand (b64Encode bs) ++ ['\''],
            '\'' :: sqExpand (b64Encode bs) ++ ['\'']⟩, none) := by
        simp [SerializeValue, hq.1]
      rw [hsv]
      exact ⟨rfl, rfl, hq.2.1, hq.2.2⟩

/-! ## The round-trip inductions -/

theorem goodInfo_parts (info : FieldInfo) (h : goodInfo info = true) :
    info.anon = false ∧ info.tag ≠ gstr "-" ∧ goodKey (effTag info) = true := by
  simp only [goodInfo, Bool.and_eq_true, Bool.not_eq_true', decide_eq_true_eq] at h
  exact ⟨h.1.1, h.1.2, h.2⟩

theorem stev_dec_scal (q : List Char) (info : FieldInfo) (sc : Scal) (rest : FieldsV)
    (hdash : info.tag ≠ gstr "-") (hanon : info.anon = false)
    (hser : (SerializeValue (q ++ effTag info) sc).2 = none) :
    stevFields [] [] q (.cons info (.vScal sc) rest) =
      ((SerializeValue (q ++ effTag info) sc).1 :: (stevFields [] [] q rest).1,
       (stevFields [] [] q rest).2) := by
  rw [stevFields_cons_scal, if_neg hdash, hanon, if_neg Bool.false_ne_true]
  simp only [List.nil_append]
  rw [stevFields_append rest [(SerializeValue (q ++ effTag info) sc).1]
    ((SerializeValue (q ++ effTag info) sc).2.toList) q]
  simp [hser]

theorem stev_dec_ptr (q : List Char) (info : FieldInfo) (sc : Scal) (rest : FieldsV)
    (hdash : info.tag ≠ gstr "-") (hanon : info.anon = false)
    (hser : (SerializeValue (q ++ effTag info) sc).2 = none) :
    stevFields [] [] q (.cons info (.vPtr sc) rest) =
      ((SerializeValue (q ++ effTag info) sc).1 :: (stevFields [] [] q rest).1,
       (stevFields [] [] q rest).2) := by
  rw [stevFields_cons_ptr, if_neg hdash, hanon, if_neg Bool.false_ne_true]
  simp only [List.nil_append]
  rw [stevFields_append rest [(SerializeValue (q ++ effTag info) sc).1]
    ((SerializeValue (q ++ effTag info) sc).2.toList) q]
  simp [hser]

theorem stev_dec_struct (q : List Char) (info : FieldInfo) (inner rest : FieldsV)
    (hdash : info.tag ≠ gstr "-") (hanon : info.anon = false) :
    stevFields [] [] q (.cons info (.vStruct inner) rest) =
      ((stevFields [] [] (effTag info ++ ['_']) inner).1 ++ (stevFields [] [] q rest).1,
       (stevFields [] [] (effTag info ++ ['_']) inner).2 ++ (stevFields [] [] q rest).2) := by
  rw [stevFields_cons_struct, if_neg hdash, hanon, if_neg Bool.false_ne_true]
  rw [stevFields_append rest (stevFields [] [] (effTag info ++ ['_']) inner).1
    (stevFields [] [] (effTag info ++ ['_']) inner).2 q]

theorem roundtrip_inner_aux (L : EnvLookup) (R : List Char) :
    ∀ (n : Nat) (fs : FieldsV), sizeOf fs ≤ n → ∀ (q : List Char),
    WFInnerFields fs = true →
    (∀ kv ∈ (stevFields [] [] q fs).1,
       L (R ++ kv.Key) = shellEvalWord kv.ShellQuotedVal false) →
    ∀ errs, sfeFields errs L (R ++ q) (zeroOfFields fs) = (fs, errs) := by
  intro n
  induction n with
  | zero => intro fs hs; cases fs <;> simp at hs
  | succ n ih0 =>
      intro fs hs q hwf hL errs
      cases fs with
      | nil => rfl
      | cons info v rest =>
      have ih : ∀ (q : List Char), WFInnerFields rest = true →
          (∀ kv ∈ (stevFields [] [] q rest).1,
            L (R ++ kv.Key) = shellEvalWord kv.ShellQuotedVal false) →
          ∀ errs, sfeFields errs L (R ++ q) (zeroOfFields rest) = (rest, errs) :=
        ih0 rest (by simp at hs; omega)
      simp only [WFInnerFields, Bool.and_eq_true] at hwf
      obtain ⟨⟨hgi, hlv⟩, hwr⟩ := hwf
      obtain ⟨hanon, hdash, _⟩ := goodInfo_parts info hgi
      cases v with
      | vPtrNil t => simp [WFLeafVal] at hlv
      | vStruct inner => simp [WFLeafVal] at hlv
      | vScal sc =>
          have hsc : WFScal sc = true := hlv
          have hser := serialize_leaf (q ++ effTag info) sc hsc
          have hdec := stev_dec_scal q info sc rest hdash hanon hser.1
          rw [hdec] at hL
          have hhead := hL _ (List.mem_cons_self _ _)
          have htail : ∀ kv ∈ (stevFields [] [] q rest).1,
              L (R ++ kv.Key) = shellEvalWord kv.ShellQuotedVal false :=
            fun kv hm => hL kv (List.mem_cons_of_mem _ hm)
          rw [hser.2.1, hser.2.2.2] at hhead
          have hfound : L ((R ++ q) ++ effTag info) = some (wireStr sc) := by
            rw [List.append_assoc]
            exact hhead
          show sfeFields errs L (R ++ q)
            (.cons info (.vScal (zeroScal (scalTy sc))) (zeroOfFields rest)) = _
          rw [sfeFields_cons_scal_found errs L (R ++ q) info (zeroScal (scalTy sc))
            (zeroOfFields rest) (wireStr sc) hdash hfound]
          rw [setValue_wire sc (zeroScal (scalTy sc)) hsc (scalTy_zeroScal _) errs _]
          dsimp only
          rw [ih q hwr htail errs]
      | vPtr sc =>
          have hsc : WFScal sc = true := hlv
          have hser := serialize_leaf (q ++ effTag info) sc hsc
          have hdec := stev_dec_ptr q info sc rest hdash hanon hser.1
          rw [hdec] at hL
          have hhead := hL _ (List.mem_cons_self _ _)
          have htail : ∀ kv ∈ (stevFields [] [] q rest).1,
              L (R ++ kv.Key) = shellEvalWord kv.ShellQuotedVal false :=
            fun kv hm => hL kv (List.mem_cons_of_mem _ hm)
          rw [hser.2.1, hser.2.2.2] at hhead
          have hfound : L ((R ++ q) ++ effTag info) = some (wireStr sc) := by
            rw [List.append_assoc]
            exact hhead
          show sfeFields errs L (R ++ q)
            (.cons info (.vPtrNil (scalTy sc)) (zeroOfFields rest)) = _
          rw [sfeFields_cons_ptrNil_found errs L (R ++ q) info (scalTy sc)
            (zeroOfFields rest) (wireStr sc) hdash hfound]
          rw [setValue_wire sc (zeroScal (scalTy sc)) hsc (scalTy_zeroScal _) errs _]
          dsimp only
          rw [ih q hwr htail errs]

theorem roundtrip_inner (L : EnvLookup) (R : List Char) (fs : FieldsV) (q : List Char)
    (hwf : WFInnerFields fs = true)
    (hL : ∀ kv ∈ (stevFields [] [] q fs).1,
       L (R ++ kv.Key) = shellEvalWord kv.ShellQuotedVal false)
    (errs : List GoErr) : sfeFields errs L (R ++ q) (zeroOfFields fs) = (fs, errs) :=
  roundtrip_inner_aux L R (sizeOf fs) fs (Nat.le_refl _) q hwf hL errs

theorem roundtrip_top_aux (L : EnvLookup) (R : List Char) :
    ∀ (n : Nat) (fs : FieldsV), sizeOf fs ≤ n → WFTopFields fs = true →
    (∀ kv ∈ (stevFields [] [] [] fs).1,
       L (R ++ kv.Key) = shellEvalWord kv.ShellQuotedVal false) →
    ∀ errs, sfeFields errs L R (zeroOfFields fs) = (fs, errs) := by
  intro n
  induction n with
  | zero => intro fs hs; cases fs <;> simp at hs
  | succ n ih0 =>
      intro fs hs hwf hL errs
      cases fs with
      | nil => rfl
      | cons info v rest =>
      have ih : WFTopFields rest = true →
          (∀ kv ∈ (stevFields [] [] [] rest).1,
            L (R ++ kv.Key) = shellEvalWord kv.ShellQuotedVal false) →
          ∀ errs, sfeFields errs L R (zeroOfFields rest) = (rest, errs) :=
        ih0 rest (by simp at hs; omega)
      simp only [WFTopFields, Bool.and_eq_true] at hwf
      obtain ⟨⟨hgi, hlv⟩, hwr⟩ := hwf
      obtain ⟨hanon, hdash, _⟩ := goodInfo_parts info hgi
      cases v with
      | vPtrNil t => simp [WFLeafVal] at hlv
      | vScal sc =>
          have hsc : WFScal sc = true := hlv
          have hser := serialize_leaf ([] ++ effTag info) sc hsc
          have hdec := stev_dec_scal [] info sc rest hdash hanon hser.1
          rw [hdec] at hL
          have hhead := hL _ (List.mem_cons_self _ _)
          have htail : ∀ kv ∈ (stevFields [] [] [] rest).1,
              L (R ++ kv.Key) = shellEvalWord kv.ShellQuotedVal false :=
            fun kv hm => hL kv (List.mem_cons_of_mem _ hm)
          rw [hser.2.1, hser.2.2.2] at hhead
          have hfound : L (R ++ effTag info) = some (wireStr sc) := by
            simpa using hhead
          show sfeFields errs L R
            (.cons info (.vScal (zeroScal (scalTy sc))) (zeroOfFields rest)) = _
          rw [sfeFields_cons_scal_found errs L R info (zeroScal (scalTy sc))
            (zeroOfFields rest) (wireStr sc) hdash hfound]
          rw [setValue_wire sc (zeroScal (scalTy sc)) hsc (scalTy_zeroScal _) errs _]
          dsimp only
          rw [ih hwr htail errs]
      | vPtr sc =>
          have hsc : WFScal sc = true := hlv
          have hser := serialize_leaf ([] ++ effTag info) sc hsc
          have hdec := stev_dec_ptr [] info sc rest hdash hanon hser.1
          rw [hdec] at hL
          have hhead := hL _ (List.mem_cons_self _ _)
          have htail : ∀ kv ∈ (stevFields [] [] [] rest).1,
              L (R ++ kv.Key) = shellEvalWord kv.ShellQuotedVal false :=
            fun kv hm => hL kv (List.mem_cons_of_mem _ hm)
          rw [hser.2.1, hser.2.2.2] at hhead
          have hfound : L (R ++ effTag info) = some (wireStr sc) := by
            simpa using hhead
          show sfeFields errs L R
            (.cons info (.vPtrNil (scalTy sc)) (zeroOfFields rest)) = _
          rw [sfeFields_cons_ptrNil_found errs L R info (scalTy sc)
            (zeroOfFields rest) (wireStr sc) hdash hfound]
          rw [setValue_wire sc (zeroScal (scalTy sc)) hsc (scalTy_zeroScal _) errs _]
          dsimp only
          rw [ih hwr htail errs]
      | vStruct inner =>
          have hwinner : WFInnerFields inner = true := hlv
          have hdec := stev_dec_struct [] info inner rest hdash hanon
          rw [hdec] at hL
          have hLinner : ∀ kv ∈ (stevFields [] [] (effTag info ++ ['_']) inner).1,
              L (R ++ kv.Key) = shellEvalWord kv.ShellQuotedVal false :=
            fun kv hm => hL kv (List.mem_append.2 (Or.inl hm))
          have htail : ∀ kv ∈ (stevFields [] [] [] rest).1,
              L (R ++ kv.Key) = shellEvalWord kv.ShellQuotedVal false :=
            fun kv hm => hL kv (List.mem_append.2 (Or.inr hm))
          show sfeFields errs L R
            (.cons info (.vStruct (zeroOfFields inner)) (zeroOfFields rest)) = _
          rw [sfeFields_cons_struct_eq, if_neg hdash]
          have hin : sfeFields errs L ((R ++ effTag info) ++ ['_']) (zeroOfFields inner) =
              (inner, errs) := by
            rw [List.append_assoc]
            exact roundtrip_inner L R inner (effTag info ++ ['_']) hwinner hLinner errs
          rw [hin]
          dsimp only
          rw [ih hwr htail errs]

/-! ## Serialize output well-formedness -/

theorem goodKey_append (q tag : List Char) (hq : ∀ c ∈ q, goodKeyChar c = true)
    (htag : goodKey tag = true) : goodKey (q ++ tag) = true := by
  have hchars := goodKey_chars tag htag
  have hne : tag ≠ [] := by
    intro he
    rw [he] at htag
    simp [goodKey] at htag
  have hne2 : q ++ tag ≠ [] := fun he => hne (List.append_eq_nil.1 he).2
  simp only [goodKey, Bool.and_eq_true, List.all_eq_true]
  constructor
  · cases hqe : q ++ tag with
    | nil => exact absurd hqe hne2
    | cons a l => rfl
  · intro c hc
    rcases List.mem_append.1 hc with h1 | h2
    · exact hq c h1
    · exact hchars c h2

theorem stev_out_ok_inner : ∀ (n : Nat) (fs : FieldsV), sizeOf fs ≤ n →
    ∀ (q : List Char), (∀ c ∈ q, goodKeyChar c = true) → WFInnerFields fs = true →
    (stevFields [] [] q fs).2 = [] ∧
    (∀ kv ∈ (stevFields [] [] q fs).1, goodKey kv.Key = true ∧
      lineSafe kv.ShellQuotedVal = true ∧
      ∃ w, shellEvalWord kv.ShellQuotedVal false = some w) := by
  intro n
  induction n with
  | zero => intro fs hs; cases fs <;> simp at hs
  | succ n ih =>
      intro fs hs q hq hwf
      cases fs with
      | nil => exact ⟨rfl, by intro kv hm; simp [stevFields_nil] at hm⟩
      | cons info v rest =>
          simp only [WFInnerFields, Bool.and_eq_true] at hwf
          obtain ⟨⟨hgi, hlv⟩, hwr⟩ := hwf
          obtain ⟨hanon, hdash, htag⟩ := goodInfo_parts info hgi
          have hrest := ih rest (by simp at hs; omega) q hq hwr
          cases v with
          | vPtrNil t => simp [WFLeafVal] at hlv
          | vStruct inner => simp [WFLeafVal] at hlv
          | vScal sc =>
              have hsc : WFScal sc = true := hlv
              have hser := serialize_leaf (q ++ effTag info) sc hsc
              have hdec := stev_dec_scal q info sc rest hdash hanon hser.1
              rw [hdec]
              refine ⟨hrest.1, ?_⟩
              intro kv hm
              rcases List.mem_cons.1 hm with rfl | hm2
              · refine ⟨?_, hser.2.2.1, ⟨wireStr sc, hser.2.2.2⟩⟩
                rw [hser.2.1]
                exact goodKey_append q (effTag info) hq htag
              · exact hrest.2 kv hm2
          | vPtr sc =>
              have hsc : WFScal sc = true := hlv
              have hser := serialize_leaf (q ++ effTag info) sc hsc
              have hdec := stev_dec_ptr q info sc rest hdash hanon hser.1
              rw [hdec]
              refine ⟨hrest.1, ?_⟩
              intro kv hm
              rcases List.mem_cons.1 hm with rfl | hm2
              · refine ⟨?_, hser.2.2.1, ⟨wireStr sc, hser.2.2.2⟩⟩
                rw [hser.2.1]
                exact goodKey_append q (effTag info) hq htag
              · exact hrest.2 kv hm2

theorem stev_out_ok_top : ∀ (n : Nat) (fs : FieldsV), sizeOf fs ≤ n →
    WFTopFields fs = true →
    (stevFields [] [] [] fs).2 = [] ∧
    (∀ kv ∈ (stevFields [] [] [] fs).1, goodKey kv.Key = true ∧
      lineSafe kv.ShellQuotedVal = true ∧
      ∃ w, shellEvalWord kv.ShellQuotedVal false = some w) := by
  intro n
  induction n with
  | zero => intro fs hs; cases fs <;> simp at hs
  | succ n ih =>
      intro fs hs hwf
      cases fs with
      | nil => exact ⟨rfl, by intro kv hm; simp [stevFields_nil] at hm⟩
      | cons info v rest =>
          simp only [WFTopFields, Bool.and_eq_true] at hwf
          obtain ⟨⟨hgi, hlv⟩, hwr⟩ := hwf
          obtain ⟨hanon, hdash, htag⟩ := goodInfo_parts info hgi
          have hrest := ih rest (by simp at hs; omega) hwr
          cases v with
          | vPtrNil t => simp [WFLeafVal] at hlv
          | vScal sc =>
              have hsc : WFScal sc = true := hlv
              have hser := serialize_leaf ([] ++ effTag info) sc hsc
              have hdec := stev_dec_scal [] info sc rest hdash hanon hser.1
              rw [hdec]
              refine ⟨hrest.1, ?_⟩
              intro kv hm
              rcases List.mem_cons.1 hm with rfl | hm2
              · refine ⟨?_, hser.2.2.1, ⟨wireStr sc, hser.2.2.2⟩⟩
                rw [hser.2.1]
                exact goodKey_append [] (effTag info) (by simp) htag
              · exact hrest.2 kv hm2
          | vPtr sc =>
              have hsc : WFScal sc = true := hlv
              have hser := serialize_leaf ([] ++ effTag info) sc hsc
              have hdec := stev_dec_ptr [] info sc rest hdash hanon hser.1
              rw [hdec]
              refine ⟨hrest.1, ?_⟩
              intro kv hm
              rcases List.mem_cons.1 hm with rfl | hm2
              · refine ⟨?_, hser.2.2.1, ⟨wireStr sc, hser.2.2.2⟩⟩
                rw [hser.2.1]
                exact goodKey_append [] (effTag info) (by simp) htag
              · exact hrest.2 kv hm2
          | vStruct inner =>
              have hwin : WFInnerFields inner = true := hlv
              have hqin : ∀ c ∈ effTag info ++ ['_'], goodKeyChar c = true := by
                intro c hc
                rcases List.mem_append.1 hc with h1 | h2
                · exact goodKey_chars _ htag c h1
                · rcases List.mem_singleton.1 h2 with rfl; decide
              have hinner := stev_out_ok_inner (sizeOf inner) inner (Nat.le_refl _)
                (effTag info ++ ['_']) hqin hwin
              have hdec := stev_dec_struct [] info inner rest hdash hanon
              rw [hdec]
              constructor
              · rw [hinner.1, hrest.1]; rfl
              · intro kv hm
                rcases List.mem_append.1 hm with h1 | h2
                · exact hinner.2 kv h1
                · exact hrest.2 kv h2

/-! ## Claim C1: the serialize/render/parse/deserialize round trip -/

/-- **C1, counterexample**: the round trip of the claim fails as stated.
A record with a single nil `*int` field serializes to `P=` (empty shell
value); the shell built from that text DOES define `TST_P` (as the empty
string), so `SetFrom` allocates the pointer and then fails to parse ""
as an int — the deserialized record holds an allocated pointer to 0, not
the original nil pointer, and an error is reported. -/
theorem c1_roundtrip_counterexample :
    (SetFrom (lookupKV (parseShellText (ToShellWithPrefix (gstr "TST_")
        (StructToEnvVars (.vStruct nilPtrField)).1 false))) (gstr "TST_")
      (zeroOfVal (.vStruct nilPtrField))).1 =
      .vStruct (.cons ⟨gstr "P", [], false⟩ (.vPtr (.sInt 64 0)) .nil) ∧
    (SetFrom (lookupKV (parseShellText (ToShellWithPrefix (gstr "TST_")
        (StructToEnvVars (.vStruct nilPtrField)).1 false))) (gstr "TST_")
      (zeroOfVal (.vStruct nilPtrField))).1 ≠ .vStruct nilPtrField := by
  constructor
  · decide
  · decide

/-- **C1 (amended)**: for records whose fields are NUL-free strings,
bools, in-range sized ints, byte slices, NON-NIL pointers to these, and
one level of named nested records of such leaves — no embedded/anonymous
fields, no excluded fields, safe non-empty key segments, pairwise
distinct keys, and a prefix of env-name characters — serializing with
StructToEnvVars, rendering with ToShellWithPrefix, and deserializing a
fresh zero record of the same type through SetFrom with a lookup backed
by POSIX-parsing that rendered text reproduces the record exactly, with
no errors in either direction. -/
theorem c1_roundtrip_amended (fs : FieldsV) (P : List Char)
    (hwf : WFTopFields fs = true)
    (hP : ∀ c ∈ P, goodKeyChar c = true)
    (hnd : ((StructToEnvVars (.vStruct fs)).1.map KeyValue.Key).Nodup) :
    (StructToEnvVars (.vStruct fs)).2 = [] ∧
    SetFrom (lookupKV (parseShellText (ToShellWithPrefix P
        (StructToEnvVars (.vStruct fs)).1 false))) P
      (zeroOfVal (.vStruct fs)) = (.vStruct fs, []) := by
  have hstev : StructToEnvVars (.vStruct fs) = stevFields [] [] [] fs := rfl
  have hout := stev_out_ok_top (sizeOf fs) fs (Nat.le_refl _) hwf
  rw [hstev] at hnd ⊢
  refine ⟨hout.1, ?_⟩
  have hkv : ∀ kv ∈ (stevFields [] [] [] fs).1, goodKey kv.Key = true ∧
      lineSafe kv.ShellQuotedVal = true ∧
      ∃ w, shellEvalWord kv.ShellQuotedVal false = some w := hout.2
  have henv := parseShellText_render P (stevFields [] [] [] fs).1 hP hkv
  have hL : ∀ kv ∈ (stevFields [] [] [] fs).1,
      lookupKV (parseShellText (ToShellWithPrefix P (stevFields [] [] [] fs).1 false))
        (P ++ kv.Key) = shellEvalWord kv.ShellQuotedVal false := by
    intro kv hm
    rw [henv]
    rw [lookupKV_map_nodup P (fun x => (shellEvalWord x.ShellQuotedVal false).getD [])
      (stevFields [] [] [] fs).1 hnd kv hm]
    rcases (hkv kv hm).2.2 with ⟨w, hw⟩
    rw [hw]
    rfl
  show setFromEnv [] _ P (.vStruct (zeroOfFields fs)) = _
  rw [setFromEnv_struct]
  rw [roundtrip_top_aux (lookupKV (parseShellText
    (ToShellWithPrefix P (stevFields [] [] [] fs).1 false))) P (sizeOf fs) fs
    (Nat.le_refl _) hwf hL []]

/-- Witness for the amended C1 at a concrete multi-kind record. -/
theorem c1_roundtrip_amended_witness :
    (StructToEnvVars (.vStruct sampleFields)).2 = [] ∧
    SetFrom (lookupKV (parseShellText (ToShellWithPrefix (gstr "TST_")
        (StructToEnvVars (.vStruct sampleFields)).1 false))) (gstr "TST_")
      (zeroOfVal (.vStruct sampleFields)) = (.vStruct sampleFields, []) :=
  c1_roundtrip_amended sampleFields (gstr "TST_") (by decide) (by decide) (by decide)

/-! ## Claim C8: shell-quoting round trip under POSIX evaluation -/

/-- **C8**: for every string without NUL, `ShellQuote` succeeds, and
evaluating its output under POSIX single-quote rules (quote closes/opens
a literal region, backslash escapes outside quotes — the rules under
which the four-character sequence quote backslash quote quote emits a
literal quote) yields exactly the input string. -/
theorem c8_shellquote_posix (s : List Char) (h : s.contains (Char.ofNat 0) = false) :
    (ShellQuote s).2 = none ∧ shellEvalWord (ShellQuote s).1 false = some s := by
  have hq := shellEval_shellQuote s h
  rw [hq.1]
  exact ⟨rfl, hq.2⟩

/-- Witness for C8 on a string with quotes and spaces. -/
theorem c8_shellquote_posix_witness :
    (ShellQuote (gstr "a'b c")).2 = none ∧
    shellEvalWord (ShellQuote (gstr "a'b c")).1 false = some (gstr "a'b c") :=
  c8_shellquote_posix (gstr "a'b c") (by decide)

/-! ## Claims C5 and C10: NUL in a string field -/

/-- Helper shared by the two NUL-string claims: the exact contribution of
a NUL-containing string field. -/
theorem nulString_field_eq (pre : List Char) (info : FieldInfo) (s : List Char)
    (rest : FieldsV) (hdash : info.tag ≠ gstr "-") (hanon : info.anon = false)
    (hnul : s.contains (Char.ofNat 0) = true) :
    stevFields [] [] pre (.cons info (.vScal (.sStr s)) rest) =
      (⟨pre ++ effTag info, [], YamlQuote s⟩ :: (stevFields [] [] pre rest).1,
       GoErr.nulInString s :: (stevFields [] [] pre rest).2) := by
  have hsq : ShellQuote s = ([], some (.nulInString s)) := by
    unfold ShellQuote
    rw [hnul]
    simp
  have hsv : SerializeValue (pre ++ effTag info) (.sStr s) =
      (⟨pre ++ effTag info, [], YamlQuote s⟩, some (.nulInString s)) := by
    simp [SerializeValue, hsq]
  rw [stevFields_cons_scal, if_neg hdash, hanon, if_neg Bool.false_ne_true, hsv]
  dsimp only
  rw [stevFields_append]
  simp

/-- **C5**: a string field whose value contains NUL contributes exactly
one error (`ShellQuote`'s NUL error) to the error list, and its key still
appears in the output KeyValue list, with the empty shell-quoted value. -/
theorem c5_nul_string_field (pre : List Char) (info : FieldInfo) (s : List Char)
    (rest : FieldsV) (hdash : info.tag ≠ gstr "-") (hanon : info.anon = false)
    (hnul : s.contains (Char.ofNat 0) = true) :
    stevFields [] [] pre (.cons info (.vScal (.sStr s)) rest) =
      (⟨pre ++ effTag info, [], YamlQuote s⟩ :: (stevFields [] [] pre rest).1,
       GoErr.nulInString s :: (stevFields [] [] pre rest).2) :=
  nulString_field_eq pre info s rest hdash hanon hnul

/-- Witness for C5 at a concrete NUL-containing string. -/
theorem c5_nul_string_field_witness :
    stevFields [] [] (gstr "TST_") (.cons ⟨gstr "Foo", [], false⟩
        (.vScal (.sStr (gstr "AB\x00C"))) .nil) =
      (⟨gstr "TST_" ++ effTag ⟨gstr "Foo", [], false⟩, [],
        YamlQuote (gstr "AB\x00C")⟩ ::
          (stevFields [] [] (gstr "TST_") .nil).1,
       GoErr.nulInString (gstr "AB\x00C") ::
          (stevFields [] [] (gstr "TST_") .nil).2) :=
  c5_nul_string_field (gstr "TST_") ⟨gstr "Foo", [], false⟩ (gstr "AB\x00C") .nil
    (by decide) (by decide) (by decide)

/-- **C10**: when a string field fails serialization because of a NUL,
the appended KeyValue still carries the full double-quoted
backslash-escaped YAML form of the string (which is never empty); only
the shell-quoted value is left empty. -/
theorem c10_nul_keeps_yaml (pre : List Char) (info : FieldInfo) (s : List Char)
    (rest : FieldsV) (hdash : info.tag ≠ gstr "-") (hanon : info.anon = false)
    (hnul : s.contains (Char.ofNat 0) = true) :
    (stevFields [] [] pre (.cons info (.vScal (.sStr s)) rest)).1.head? =
      some ⟨pre ++ effTag info, [], YamlQuote s⟩ ∧ YamlQuote s ≠ [] := by
  rw [nulString_field_eq pre info s rest hdash hanon hnul]
  exact ⟨rfl, by simp [YamlQuote]⟩

/-- Witness for C10. -/
theorem c10_nul_keeps_yaml_witness :
    (stevFields [] [] [] (.cons ⟨gstr "Foo", [], false⟩
        (.vScal (.sStr (gstr "a\x00"))) .nil)).1.head? =
      some ⟨[] ++ effTag ⟨gstr "Foo", [], false⟩, [], YamlQuote (gstr "a\x00")⟩ ∧
    YamlQuote (gstr "a\x00") ≠ [] :=
  c10_nul_keeps_yaml [] ⟨gstr "Foo", [], false⟩ (gstr "a\x00") .nil
    (by decide) (by decide) (by decide)

/-! ## Claim C6: nil pointer fields -/

/-- **C6**: a nil pointer field serializes to a KeyValue whose shell value
is the empty string and whose YAML value is the literal `null`, with no
error recorded; and when deserializing, if the field's key is absent from
the lookup, the field keeps its prior value — a nil pointer remains nil. -/
theorem c6_nil_pointer (pre : List Char) (info : FieldInfo) (t : ScalTy)
    (rest : FieldsV) (L : EnvLookup) (errs : List GoErr)
    (hdash : info.tag ≠ gstr "-") (hanon : info.anon = false)
    (habsent : L (pre ++ effTag info) = none) :
    stevFields [] [] pre (.cons info (.vPtrNil t) rest) =
      (⟨pre ++ effTag info, [], gstr "null"⟩ :: (stevFields [] [] pre rest).1,
       (stevFields [] [] pre rest).2) ∧
    sfeFields errs L pre (.cons info (.vPtrNil t) rest) =
      (.cons info (.vPtrNil t) (sfeFields errs L pre rest).1,
       (sfeFields errs L pre rest).2) := by
  constructor
  · rw [stevFields_cons_ptrNil, if_neg hdash, hanon, if_neg Bool.false_ne_true]
    rw [stevFields_append]
    simp
  · rw [sfeFields_cons_ptrNil_eq, if_neg hdash, habsent]

/-- Witness for C6 with an empty lookup. -/
theorem c6_nil_pointer_witness :
    stevFields [] [] (gstr "TST_") (.cons ⟨gstr "P", [], false⟩ (.vPtrNil (.tInt 64)) .nil) =
      (⟨gstr "TST_" ++ effTag ⟨gstr "P", [], false⟩, [], gstr "null"⟩ ::
        (stevFields [] [] (gstr "TST_") .nil).1,
       (stevFields [] [] (gstr "TST_") .nil).2) ∧
    sfeFields [] (fun _ => none) (gstr "TST_")
        (.cons ⟨gstr "P", [], false⟩ (.vPtrNil (.tInt 64)) .nil) =
      (.cons ⟨gstr "P", [], false⟩ (.vPtrNil (.tInt 64))
        (sfeFields [] (fun _ => none) (gstr "TST_") .nil).1,
       (sfeFields [] (fun _ => none) (gstr "TST_") .nil).2) :=
  c6_nil_pointer (gstr "TST_") ⟨gstr "P", [], false⟩ (.tInt 64) .nil (fun _ => none) []
    (by decide) (by decide) rfl

/-! ## Claim C7: excluded fields -/

theorem qkFields_nil (p : List Char) : qkFields p .nil = [] := rfl

theorem qkFields_cons_scal (p : List Char) (info : FieldInfo) (sc : Scal) (rest : FieldsV) :
    qkFields p (.cons info (.vScal sc) rest) =
      if info.tag = gstr "-" then qkFields p rest
      else (p ++ effTag info) :: qkFields p rest := by
  by_cases h : info.tag = gstr "-" <;> simp [qkFields, h]

theorem qkFields_cons_ptr (p : List Char) (info : FieldInfo) (sc : Scal) (rest : FieldsV) :
    qkFields p (.cons info (.vPtr sc) rest) =
      if info.tag = gstr "-" then qkFields p rest
      else (p ++ effTag info) :: qkFields p rest := by
  by_cases h : info.tag = gstr "-" <;> simp [qkFields, h]

theorem qkFields_cons_ptrNil (p : List Char) (info : FieldInfo) (t : ScalTy) (rest : FieldsV) :
    qkFields p (.cons info (.vPtrNil t) rest) =
      if info.tag = gstr "-" then qkFields p rest
      else (p ++ effTag info) :: qkFields p rest := by
  by_cases h : info.tag = gstr "-" <;> simp [qkFields, h]

theorem qkFields_cons_struct (p : List Char) (info : FieldInfo) (inner rest : FieldsV) :
    qkFields p (.cons info (.vStruct inner) rest) =
      if info.tag = gstr "-" then qkFields p rest
      else qkFields ((p ++ effTag info) ++ ['_']) inner ++ qkFields p rest := by
  by_cases h : info.tag = gstr "-" <;> simp [qkFields, h]

theorem sfeFields_cons_dash (errs : List GoErr) (L : EnvLookup) (p : List Char)
    (info : FieldInfo) (v : Val) (rest : FieldsV) (hdash : info.tag = gstr "-") :
    sfeFields errs L p (.cons info v rest) =
      (.cons info v (sfeFields errs L p rest).1, (sfeFields errs L p rest).2) := by
  cases v with
  | vScal sc => rw [sfeFields_cons_scal_eq, if_pos hdash]
  | vPtr sc => rw [sfeFields_cons_ptr_eq, if_pos hdash]
  | vPtrNil t => rw [sfeFields_cons_ptrNil_eq, if_pos hdash]
  | vStruct inner => rw [sfeFields_cons_struct_eq, if_pos hdash]

theorem stevFields_cons_dash (ev : List KeyValue) (er : List GoErr) (p : List Char)
    (info : FieldInfo) (v : Val) (rest : FieldsV) (hdash : info.tag = gstr "-") :
    stevFields ev er p (.cons info v rest) = stevFields ev er p rest := by
  cases v with
  | vScal sc => rw [stevFields_cons_scal, if_pos hdash]
  | vPtr sc => rw [stevFields_cons_ptr, if_pos hdash]
  | vPtrNil t => rw [stevFields_cons_ptrNil, if_pos hdash]
  | vStruct inner => rw [stevFields_cons_struct, if_pos hdash]

/-- The deserialize walker reads its lookup only at the queried keys. -/
theorem sfe_lookup_congr : ∀ (n : Nat) (fs : FieldsV), sizeOf fs ≤ n →
    ∀ (errs : List GoErr) (L L' : EnvLookup) (p : List Char),
    (∀ k ∈ qkFields p fs, L k = L' k) →
    sfeFields errs L p fs = sfeFields errs L' p fs := by
  intro n
  induction n with
  | zero => intro fs hs; cases fs <;> simp at hs
  | succ n ih =>
      intro fs hs errs L L' p hagree
      cases fs with
      | nil => rfl
      | cons info v rest =>
          have hrest : sizeOf rest ≤ n := by simp at hs; omega
          by_cases hdash : info.tag = gstr "-"
          · rw [sfeFields_cons_dash errs L p info v rest hdash,
              sfeFields_cons_dash errs L' p info v rest hdash]
            have hagree2 : ∀ k ∈ qkFields p rest, L k = L' k := by
              intro k hk
              apply hagree
              cases v <;>
                simp [qkFields_cons_scal, qkFields_cons_ptr, qkFields_cons_ptrNil,
                  qkFields_cons_struct, hdash, hk]
            rw [ih rest hrest errs L L' p hagree2]
          · have hkey : L (p ++ effTag info) = L' (p ++ effTag info) ∨
                (∃ inner, v = .vStruct inner) := by
              cases v with
              | vStruct inner => exact Or.inr ⟨inner, rfl⟩
              | vScal sc =>
                  refine Or.inl (hagree _ ?_)
                  rw [qkFields_cons_scal, if_neg hdash]
                  exact List.mem_cons_self _ _
              | vPtr sc =>
                  refine Or.inl (hagree _ ?_)
                  rw [qkFields_cons_ptr, if_neg hdash]
                  exact List.mem_cons_self _ _
              | vPtrNil t =>
                  refine Or.inl (hagree _ ?_)
                  rw [qkFields_cons_ptrNil, if_neg hdash]
                  exact List.mem_cons_self _ _
            have hagreerest : ∀ k ∈ qkFields p rest, L k = L' k := by
              intro k hk
              apply hagree
              cases v <;>
                simp [qkFields_cons_scal, qkFields_cons_ptr, qkFields_cons_ptrNil,
                  qkFields_cons_struct, hdash, hk]
            cases v with
            | vScal sc =>
                rcases hkey with hkey | ⟨_, he⟩
                · rw [sfeFields_cons_scal_eq, sfeFields_cons_scal_eq, if_neg hdash,
                    if_neg hdash, ← hkey]
                  cases hv : L (p ++ effTag info) with
                  | none => dsimp only; rw [ih rest hrest errs L L' p hagreerest]
                  | some w =>
                      dsimp only
                      rw [ih rest hrest (setValue errs sc (p ++ effTag info) w).2
                        L L' p hagreerest]
                · exact absurd he (by simp)
            | vPtr sc =>
                rcases hkey with hkey | ⟨_, he⟩
                · rw [sfeFields_cons_ptr_eq, sfeFields_cons_ptr_eq, if_neg hdash,
                    if_neg hdash, ← hkey]
                  cases hv : L (p ++ effTag info) with
                  | none => dsimp only; rw [ih rest hrest errs L L' p hagreerest]
                  | some w =>
                      dsimp only
                      rw [ih rest hrest (setValue errs sc (p ++ effTag info) w).2
                        L L' p hagreerest]
                · exact absurd he (by simp)
            | vPtrNil t =>
                rcases hkey with hkey | ⟨_, he⟩
                · rw [sfeFields_cons_ptrNil_eq, sfeFields_cons_ptrNil_eq, if_neg hdash,
                    if_neg hdash, ← hkey]
                  cases hv : L (p ++ effTag info) with
                  | none => dsimp only; rw [ih rest hrest errs L L' p hagreerest]
                  | some w =>
                      dsimp only
                      rw [ih rest hrest (setValue errs (zeroScal t) (p ++ effTag info) w).2
                        L L' p hagreerest]
                · exact absurd he (by simp)
            | vStruct inner =>
                have hinner : sizeOf inner ≤ n := by simp at hs; omega
                have hagreeinner : ∀ k ∈ qkFields ((p ++ effTag info) ++ ['_']) inner,
                    L k = L' k := by
                  intro k hk
                  apply hagree
                  rw [qkFields_cons_struct, if_neg hdash]
                  exact List.mem_append.2 (Or.inl hk)
                rw [sfeFields_cons_struct_eq, sfeFields_cons_struct_eq, if_neg hdash,
                  if_neg hdash,
                  ih inner hinner errs L L' ((p ++ effTag info) ++ ['_']) hagreeinner,
                  ih rest hrest (sfeFields errs L' ((p ++ effTag info) ++ ['_']) inner).2
                    L L' p hagreerest]

/-- **C7**: an excluded field (`env:"-"`) contributes no entry to the
serialize output; during deserialize it is skipped untouched, the set of
keys queried from the lookup is exactly that of the remaining fields, and
any two lookups that agree on those queried keys — regardless of their
value at the excluded field's key — produce identical results. -/
theorem c7_excluded_field (ev : List KeyValue) (er : List GoErr) (pre : List Char)
    (info : FieldInfo) (v : Val) (rest : FieldsV) (L : EnvLookup) (errs : List GoErr)
    (hdash : info.tag = gstr "-") :
    stevFields ev er pre (.cons info v rest) = stevFields ev er pre rest ∧
    sfeFields errs L pre (.cons info v rest) =
      (.cons info v (sfeFields errs L pre rest).1, (sfeFields errs L pre rest).2) ∧
    qkFields pre (.cons info v rest) = qkFields pre rest ∧
    (∀ L' : EnvLookup, (∀ k ∈ qkFields pre rest, L k = L' k) →
      sfeFields errs L pre (.cons info v rest) = sfeFields errs L' pre (.cons info v rest)) := by
  refine ⟨stevFields_cons_dash ev er pre info v rest hdash,
    sfeFields_cons_dash errs L pre info v rest hdash, ?_, ?_⟩
  · cases v <;>
      simp [qkFields_cons_scal, qkFields_cons_ptr, qkFields_cons_ptrNil,
        qkFields_cons_struct, hdash]
  · intro L' hagree
    apply sfe_lookup_congr (sizeOf (FieldsV.cons info v rest)) _ (Nat.le_refl _) errs L L' pre
    intro k hk
    apply hagree
    revert hk
    cases v <;>
      simp [qkFields_cons_scal, qkFields_cons_ptr, qkFields_cons_ptrNil,
        qkFields_cons_struct, hdash]

/-- Witness for C7 at a concrete excluded field. -/
theorem c7_excluded_field_witness :
    stevFields [] [] [] (.cons ⟨gstr "NotThere", gstr "-", false⟩
        (.vScal (.sInt 64 13)) .nil) = stevFields [] [] [] .nil ∧
    sfeFields [] (fun _ => none) [] (.cons ⟨gstr "NotThere", gstr "-", false⟩
        (.vScal (.sInt 64 13)) .nil) =
      (.cons ⟨gstr "NotThere", gstr "-", false⟩ (.vScal (.sInt 64 13))
        (sfeFields [] (fun _ => none) [] .nil).1,
       (sfeFields [] (fun _ => none) [] .nil).2) ∧
    qkFields [] (.cons ⟨gstr "NotThere", gstr "-", false⟩
        (.vScal (.sInt 64 13)) .nil) = qkFields [] .nil ∧
    (∀ L' : EnvLookup, (∀ k ∈ qkFields ([] : List Char) FieldsV.nil,
        (fun _ => none : EnvLookup) k = L' k) →
      sfeFields [] (fun _ => none) [] (.cons ⟨gstr "NotThere", gstr "-", false⟩
          (.vScal (.sInt 64 13)) .nil) =
        sfeFields [] L' [] (.cons ⟨gstr "NotThere", gstr "-", false⟩
          (.vScal (.sInt 64 13)) .nil)) :=
  c7_excluded_field [] [] [] ⟨gstr "NotThere", gstr "-", false⟩ (.vScal (.sInt 64 13))
    .nil (fun _ => none) [] (by decide)

/-! ## Claim C2: embedded fields and the recursion prefix -/

/-- **C2, counterexample**: the claim fails as stated.  In a record whose
field `Outer` is a named nested struct containing an embedded record with
an int field `A`, the walker reaches the embedded record with enclosing
prefix `OUTER_` but recurses with the EMPTY prefix (env.go line 229
passes ""), so the child's key is `A`, not the `OUTER_A` the claim's
"same key prefix as the current level" requires. -/
theorem c2_embedded_prefix_counterexample :
    (StructToEnvVars (.vStruct c2Top)).1.map KeyValue.Key = [gstr "A"] ∧
    (StructToEnvVars (.vStruct c2Top)).1.map KeyValue.Key ≠ [gstr "OUTER_A"] := by
  constructor
  · decide
  · decide

/-- **C2 (amended)**: for every field that is an embedded/anonymous
sub-record (not tagged for exclusion), the serialize walker recurses into
it with the EMPTY prefix — its contribution is exactly
`StructToEnvVars` of the embedded value, independent of the current
prefix, so its children's keys carry neither an extra segment from the
embedding field nor the enclosing prefix (which coincides with the
claim's wording only at the top level, where the enclosing prefix is
empty). -/
theorem c2_embedded_empty_prefix_amended (ev : List KeyValue) (er : List GoErr)
    (pre : List Char) (info : FieldInfo) (v : Val) (rest : FieldsV)
    (hdash : info.tag ≠ gstr "-") (hanon : info.anon = true) :
    stevFields ev er pre (.cons info v rest) =
      stevFields (ev ++ (StructToEnvVars v).1) (er ++ (StructToEnvVars v).2) pre rest := by
  have hSt : StructToEnvVars v = structToEnvVars [] [] [] v := rfl
  cases v with
  | vScal sc =>
      rw [stevFields_cons_scal, if_neg hdash, if_pos hanon,
        structToEnvVars_append _ ev er [], hSt]
  | vPtr sc =>
      rw [stevFields_cons_ptr, if_neg hdash, if_pos hanon,
        structToEnvVars_append _ ev er [], hSt]
  | vPtrNil t =>
      rw [stevFields_cons_ptrNil, if_neg hdash, if_pos hanon,
        structToEnvVars_append _ ev er [], hSt]
  | vStruct inner =>
      rw [stevFields_cons_struct, if_neg hdash, if_pos hanon,
        structToEnvVars_append _ ev er [], hSt]

/-- Witness for the amended C2: the embedded record contributes its
top-level serialization even under the non-empty prefix `OUTER_`. -/
theorem c2_embedded_empty_prefix_amended_witness :
    stevFields [] [] (gstr "OUTER_") (.cons ⟨gstr "Inner", [], true⟩
        (.vStruct c2Inner) .nil) =
      stevFields ([] ++ (StructToEnvVars (.vStruct c2Inner)).1)
        ([] ++ (StructToEnvVars (.vStruct c2Inner)).2) (gstr "OUTER_") .nil :=
  c2_embedded_empty_prefix_amended [] [] (gstr "OUTER_") ⟨gstr "Inner", [], true⟩
    (.vStruct c2Inner) .nil (by decide) (by decide)

/-! ## Claim C3: parse failures during deserialize -/

/-- **C3, counterexample**: the claim fails as stated.  For a nil `*int`
field whose key IS found but holds the unparseable value "abc", the
claim says the field is left unmodified (a nil pointer remaining nil);
the code allocates the pointer (`setPointer`) BEFORE parsing, so after
the failed parse the field holds an allocated pointer to 0, not nil. -/
theorem c3_parse_failure_counterexample :
    (SetFrom (fun k => if k = gstr "P" then some (gstr "abc") else none) []
      (.vStruct nilPtrField)).1 =
      .vStruct (.cons ⟨gstr "P", [], false⟩ (.vPtr (.sInt 64 0)) .nil) ∧
    (SetFrom (fun k => if k = gstr "P" then some (gstr "abc") else none) []
      (.vStruct nilPtrField)).1 ≠ .vStruct nilPtrField := by
  constructor
  · decide
  · decide

/-- **C3 (amended)**: for every field whose key is found but whose value
fails to parse for the field's target kind (`failResult` fires: malformed
integer, bool or base64 — strings never fail), exactly one error entry is
appended, and it is computed from the scalar slot and the offending value
alone, never from the field or key name.  An integer or bool scalar field
keeps its prior value; a byte-slice scalar field does NOT — it stores the
partial base64 decode (`SetBytes` runs even on error); a non-nil pointer
field's pointee is updated like the corresponding scalar; and a nil
pointer field whose key was found has already been allocated
(`setPointer`) before the parse, so on failure it holds an allocated
pointer to the residual of the zero value rather than remaining nil. -/
theorem c3_parse_failure_amended :
    (∀ (errs : List GoErr) (L : EnvLookup) (pre : List Char) (info : FieldInfo)
      (sc sc' : Scal) (rest : FieldsV) (bad : List Char) (e : GoErr),
      info.tag ≠ gstr "-" → L (pre ++ effTag info) = some bad →
      failResult sc bad = some (sc', e) →
      sfeFields errs L pre (.cons info (.vScal sc) rest) =
        (.cons info (.vScal sc') (sfeFields (errs ++ [e]) L pre rest).1,
         (sfeFields (errs ++ [e]) L pre rest).2)) ∧
    (∀ (errs : List GoErr) (L : EnvLookup) (pre : List Char) (info : FieldInfo)
      (sc sc' : Scal) (rest : FieldsV) (bad : List Char) (e : GoErr),
      info.tag ≠ gstr "-" → L (pre ++ effTag info) = some bad →
      failResult sc bad = some (sc', e) →
      sfeFields errs L pre (.cons info (.vPtr sc) rest) =
        (.cons info (.vPtr sc') (sfeFields (errs ++ [e]) L pre rest).1,
         (sfeFields (errs ++ [e]) L pre rest).2)) ∧
    (∀ (errs : List GoErr) (L : EnvLookup) (pre : List Char) (info : FieldInfo)
      (t : ScalTy) (sc' : Scal) (rest : FieldsV) (bad : List Char) (e : GoErr),
      info.tag ≠ gstr "-" → L (pre ++ effTag info) = some bad →
      failResult (zeroScal t) bad = some (sc', e) →
      sfeFields errs L pre (.cons info (.vPtrNil t) rest) =
        (.cons info (.vPtr sc') (sfeFields (errs ++ [e]) L pre rest).1,
         (sfeFields (errs ++ [e]) L pre rest).2)) ∧
    (∀ (errs : List GoErr) (s n w : List Char),
      setValue errs (.sStr s) n w = (.sStr w, errs)) := by
  refine ⟨?_, ?_, ?_, ?_⟩
  · intro errs L pre info sc sc' rest bad e hdash hL hf
    rw [sfeFields_cons_scal_found errs L pre info sc rest bad hdash hL,
        setValue_fail errs sc (pre ++ effTag info) bad sc' e hf]
  · intro errs L pre info sc sc' rest bad e hdash hL hf
    rw [sfeFields_cons_ptr_found errs L pre info sc rest bad hdash hL,
        setValue_fail errs sc (pre ++ effTag info) bad sc' e hf]
  · intro errs L pre info t sc' rest bad e hdash hL hf
    rw [sfeFields_cons_ptrNil_found errs L pre info t rest bad hdash hL,
        setValue_fail errs (zeroScal t) (pre ++ effTag info) bad sc' e hf]
  · intro errs s n w
    rfl

/-- Witness for the amended C3: a malformed bool on a bool field (kept),
a corrupt base64 value on a byte-slice field (partial decode "ABC"
stored), a malformed integer on a non-nil `*int` field (pointee kept),
a corrupt base64 value on a nil `*[]byte` field (allocated, holding the
partial decode), and a string slot accepting any value with no error. -/
theorem c3_parse_failure_amended_witness :
    (sfeFields [] (fun _ => some (gstr "maybe")) [] (.cons ⟨gstr "ABool", [], false⟩
        (.vScal (.sBool true)) .nil) =
      (.cons ⟨gstr "ABool", [], false⟩ (.vScal (.sBool true))
        (sfeFields ([] ++ [.numError (gstr "ParseBool") (gstr "maybe") false])
          (fun _ => some (gstr "maybe")) [] .nil).1,
       (sfeFields ([] ++ [.numError (gstr "ParseBool") (gstr "maybe") false])
          (fun _ => some (gstr "maybe")) [] .nil).2)) ∧
    (sfeFields [] (fun _ => some (gstr "QUJD!xyz")) []
        (.cons ⟨gstr "SomeBinary", [], false⟩ (.vScal (.sBytes [9])) .nil) =
      (.cons ⟨gstr "SomeBinary", [], false⟩ (.vScal (.sBytes [65, 66, 67]))
        (sfeFields ([] ++ [.base64Error 4])
          (fun _ => some (gstr "QUJD!xyz")) [] .nil).1,
       (sfeFields ([] ++ [.base64Error 4])
          (fun _ => some (gstr "QUJD!xyz")) [] .nil).2)) ∧
    (sfeFields [] (fun _ => some (gstr "abc")) [] (.cons ⟨gstr "IntPointer", [], false⟩
        (.vPtr (.sInt 32 5)) .nil) =
      (.cons ⟨gstr "IntPointer", [], false⟩ (.vPtr (.sInt 32 5))
        (sfeFields ([] ++ [.numError (gstr "ParseInt") (gstr "abc") false])
          (fun _ => some (gstr "abc")) [] .nil).1,
       (sfeFields ([] ++ [.numError (gstr "ParseInt") (gstr "abc") false])
          (fun _ => some (gstr "abc")) [] .nil).2)) ∧
    (sfeFields [] (fun _ => some (gstr "QUJD!xyz")) [] (.cons ⟨gstr "BinPtr", [], false⟩
        (.vPtrNil .tBytes) .nil) =
      (.cons ⟨gstr "BinPtr", [], false⟩ (.vPtr (.sBytes [65, 66, 67]))
        (sfeFields ([] ++ [.base64Error 4])
          (fun _ => some (gstr "QUJD!xyz")) [] .nil).1,
       (sfeFields ([] ++ [.base64Error 4])
          (fun _ => some (gstr "QUJD!xyz")) [] .nil).2)) ∧
    setValue [] (.sStr (gstr "old")) (gstr "FOO") (gstr "new") =
      (.sStr (gstr "new"), []) :=
  ⟨c3_parse_failure_amended.1 [] (fun _ => some (gstr "maybe")) []
      ⟨gstr "ABool", [], false⟩ (.sBool true) (.sBool true) .nil (gstr "maybe")
      (.numError (gstr "ParseBool") (gstr "maybe") false) (by decide) rfl (by decide),
   c3_parse_failure_amended.1 [] (fun _ => some (gstr "QUJD!xyz")) []
      ⟨gstr "SomeBinary", [], false⟩ (.sBytes [9]) (.sBytes [65, 66, 67]) .nil
      (gstr "QUJD!xyz") (.base64Error 4) (by decide) rfl (by decide),
   c3_parse_failure_amended.2.1 [] (fun _ => some (gstr "abc")) []
      ⟨gstr "IntPointer", [], false⟩ (.sInt 32 5) (.sInt 32 5) .nil (gstr "abc")
      (.numError (gstr "ParseInt") (gstr "abc") false) (by decide) rfl (by decide),
   c3_parse_failure_amended.2.2.1 [] (fun _ => some (gstr "QUJD!xyz")) []
      ⟨gstr "BinPtr", [], false⟩ .tBytes (.sBytes [65, 66, 67]) .nil
      (gstr "QUJD!xyz") (.base64Error 4) (by decide) rfl (by decide),
   c3_parse_failure_amended.2.2.2 [] (gstr "old") (gstr "FOO") (gstr "new")⟩

end Struct2Env
